import Mathlib

/-!
# Election core of the posposet consensus (package `election`)

A shallow embedding of `src/posposet/election/election.go` and
`src/posposet/election/sort_roots.go`, followed by theorems about it.

Conventions of the embedding

* Go's `uint64` types (`IdxFrame`, `Amount`) are natural numbers; where the
  source does arithmetic on them the result is reduced modulo `2 ^ 64`.
* A Go `map` is an association list with pairwise distinct keys (`AList`);
  `len(m)` is the number of its entries.
* A method with a pointer receiver is a function of the election state that
  returns the state after the call next to its Go results.
* `el.Fatal(...)` ends the run: the result is `Run.fatal` and nothing after it
  is executed.
* `ProcessRoot` is called by `ProcessKnownRoots` but its body is not in the two
  source files. `ProcessKnownRoots` takes it as a parameter; where a property is
  about `ProcessRoot` itself, `Election.ProcessRoot` is the model written from
  section 4.1 of the specification.
-/

namespace election

/-! ## Types declared outside the two source files -/

/-- The number of values of a Go `uint64`. -/
def uint64Size : Nat := 2 ^ 64

/-- Modelled from the spec: `hash.Event` (package `hash`, not among the source
files) is a fixed-size event identifier that is compared "as an unsigned big
integer". An identifier is represented by that integer; the bound `2 ^ 256`
stands for the fixed size of the identifier and no proof depends on its value. -/
structure Event where
  id : Fin (2 ^ 256)
deriving DecidableEq

/-- Modelled from the spec: `root.Big()`, the event identifier read as an
unsigned big integer. -/
def Event.Big (e : Event) : Nat := e.id.val

/-- Modelled from the spec: `hash.Peer` (package `hash`), the address of a
member, a fixed-size identifier with decidable equality. -/
structure Peer where
  id : Fin (2 ^ 256)
deriving DecidableEq

/-- Source: `type IdxFrame uint64`. -/
abbrev IdxFrame := Nat

/-- Source: `type Amount uint64`. -/
abbrev Amount := Nat

/-- Modelled from the spec: `members.Member` (package `members`) is
`{address: PeerID, stake: Amount}`. -/
structure Member where
  Addr : Peer
  Stake : Amount
deriving DecidableEq

/-! ## Types of `election.go` -/

/-- Source: `type RootSlot struct { Frame IdxFrame; Addr hash.Peer }`. -/
structure RootSlot where
  Frame : IdxFrame
  Addr : Peer
deriving DecidableEq

/-- Source: `type RootStronglySeeRootFn func(a hash.Event, b RootSlot) *hash.Event`;
a nil pointer is `none`. -/
abbrev RootStronglySeeRootFn := Event → RootSlot → Option Event

/-- Source: `type voteId struct { fromRoot hash.Event; forMember hash.Peer }`. -/
structure voteId where
  fromRoot : Event
  forMember : Peer
deriving DecidableEq

/-- Source: `type voteValue struct { decided bool; yes bool; seenRoot hash.Event }`. -/
structure voteValue where
  decided : Bool
  yes : Bool
  seenRoot : Event
deriving DecidableEq

/-- Source: `type ElectionRes struct { DecidedFrame IdxFrame; DecidedSfWitness hash.Event }`. -/
structure ElectionRes where
  DecidedFrame : IdxFrame
  DecidedSfWitness : Event
deriving DecidableEq

/-- Source: `type Election struct`. The embedded `logger.Instance` only writes log
lines and is left out; its `Fatal` is `Run.fatal` below. -/
structure Election where
  frameToDecide : IdxFrame
  members : List Member
  totalStake : Amount
  superMajority : Amount
  decidedRoots : AList (fun _ : Peer => voteValue)
  votes : AList (fun _ : voteId => voteValue)
  stronglySee : RootStronglySeeRootFn

/-- The Go result pair `(*ElectionRes, error)`: a nil pointer and a nil error
are `none`; an error is represented by its message. -/
abbrev Ret := Option ElectionRes × Option String

/-- Modelled from the spec: `logger.Instance.Fatal` (package `logger`) is a
fatal internal-invariant violation that "must abort the process". A run either
is aborted by `el.Fatal(msg)` (`fatal`), is aborted by a run-time panic of Go
(`panic`), or reaches its end with a value (`done`). -/
inductive Run (α : Type) where
  | fatal (msg : String) : Run α
  | panic (msg : String) : Run α
  | done (a : α) : Run α
deriving DecidableEq

/-- The value of a finished run mapped through `f`; an abort stays. -/
def Run.map {α β : Type} (f : α → β) : Run α → Run β
  | .fatal msg => .fatal msg
  | .panic msg => .panic msg
  | .done a => .done (f a)

/-- Whether the run was aborted (by `Fatal` or by a panic). -/
def Run.aborted {α : Type} : Run α → Bool
  | .done _ => false
  | _ => true

/-- The length `len(m)` of a Go map. -/
def mapLen {κ : Type} {ν : Type} (m : AList (fun _ : κ => ν)) : Nat := m.entries.length

/-! ## `election.go` -/

/-- Source: `func NewElection(members, totalStake, superMajority, frameToDecide, stronglySeeFn)`. -/
def NewElection (members : List Member) (totalStake : Amount) (superMajority : Amount)
    (frameToDecide : IdxFrame) (stronglySeeFn : RootStronglySeeRootFn) : Election :=
  { members := members
    totalStake := totalStake
    superMajority := superMajority
    frameToDecide := frameToDecide
    decidedRoots := ∅
    votes := ∅
    stronglySee := stronglySeeFn }

/-- Source: `func (el *Election) ResetElection(frameToDecide IdxFrame)`. -/
def Election.ResetElection (el : Election) (frameToDecide : IdxFrame) : Election :=
  { el with
    frameToDecide := frameToDecide
    votes := ∅
    decidedRoots := ∅ }

/-- The `for _, member := range el.members` loop of `notDecidedRoots`;
`acc` is the slice `notDecidedRoots` built so far. -/
def notDecidedLoop (decidedRoots : AList (fun _ : Peer => voteValue)) :
    List Member → List Peer → List Peer
  | [], acc => acc
  | member :: rest, acc =>
    match decidedRoots.lookup member.Addr with
    | none => notDecidedLoop decidedRoots rest (acc ++ [member.Addr])
    | some _ => notDecidedLoop decidedRoots rest acc

/-- Source: `func (el *Election) notDecidedRoots() []hash.Peer`. -/
def Election.notDecidedRoots (el : Election) : Run (Election × List Peer) :=
  let notDecidedRoots := notDecidedLoop el.decidedRoots el.members []
  if notDecidedRoots.length + mapLen el.decidedRoots ≠ el.members.length then
    .fatal "Mismatch of roots"
  else
    .done (el, notDecidedRoots)

/-- Source: `type weightedRoot struct { root hash.Event; stake Amount }`. -/
structure weightedRoot where
  root : Event
  stake : Amount
deriving DecidableEq

/-- One call of the oracle `el.stronglySee(a, b)`. -/
structure OracleQuery where
  a : Event
  b : RootSlot
deriving DecidableEq

/-- The loop of `stronglySeenRoots`; `seenRoots` is the slice built so far and
`asked` records, in order, the oracle calls made so far. -/
def stronglySeenLoop (stronglySee : RootStronglySeeRootFn) (root : Event) (frame : IdxFrame) :
    List Member → List weightedRoot → List OracleQuery → List weightedRoot × List OracleQuery
  | [], seenRoots, asked => (seenRoots, asked)
  | member :: rest, seenRoots, asked =>
    let slot : RootSlot := { Frame := frame, Addr := member.Addr }
    match stronglySee root slot with
    | some seenRoot =>
      stronglySeenLoop stronglySee root frame rest
        (seenRoots ++ [{ root := seenRoot, stake := member.Stake }]) (asked ++ [⟨root, slot⟩])
    | none =>
      stronglySeenLoop stronglySee root frame rest seenRoots (asked ++ [⟨root, slot⟩])

/-- Source: `func (el *Election) stronglySeenRoots(root hash.Event, frame IdxFrame) []weightedRoot`:
the state after the call, the returned slice, and the record of the oracle
calls that were made. -/
def Election.stronglySeenRoots (el : Election) (root : Event) (frame : IdxFrame) :
    Election × List weightedRoot × List OracleQuery :=
  (el, stronglySeenLoop el.stronglySee root frame el.members [] [])

/-- Source: `type GetRootsFn func(slot RootSlot) hash.Events`. `hash.Events` is a set
of events that the source walks with `range`; the list holds its events, each
once, in the order in which the run walks them. -/
abbrev GetRootsFn := RootSlot → List Event

/-- The signature of `func (el *Election) ProcessRoot(root hash.Event, slot RootSlot)
(*ElectionRes, error)`, whose body is not in the two source files: it may change
the election state and may abort. -/
abbrev ProcessRootFn := Election → Event → RootSlot → Run (Election × Ret)

/-- One call `el.ProcessRoot(root, slot)`. -/
structure Call where
  root : Event
  slot : RootSlot
deriving DecidableEq

/-- How a loop of `ProcessKnownRoots` is left: it ran to its end (`next`, with
the state reached), or the function returned or was aborted inside it (`exit`). -/
inductive Flow where
  | next (el : Election) : Flow
  | exit (r : Run (Election × Ret)) : Flow

/-- The loop `for root := range roots` of `ProcessKnownRoots`; `calls` records,
in order, the `ProcessRoot` calls made so far. -/
def rootsLoop (ProcessRoot : ProcessRootFn) (slot : RootSlot) :
    List Event → Election → List Call → List Call × Flow
  | [], el, calls => (calls, .next el)
  | root :: rest, el, calls =>
    match ProcessRoot el root slot with
    | .done (el1, (decided, err)) =>
      if decided.isSome || err.isSome then
        (calls ++ [⟨root, slot⟩], .exit (.done (el1, (decided, err))))
      else
        rootsLoop ProcessRoot slot rest el1 (calls ++ [⟨root, slot⟩])
    | .fatal msg => (calls ++ [⟨root, slot⟩], .exit (.fatal msg))
    | .panic msg => (calls ++ [⟨root, slot⟩], .exit (.panic msg))

/-- The loop `for _, member := range el.members` of `ProcessKnownRoots`, over
the member list read when the loop is entered. -/
def membersLoop (ProcessRoot : ProcessRootFn) (getRootsFn : GetRootsFn) (frame : IdxFrame) :
    List Member → Election → List Call → List Call × Flow
  | [], el, calls => (calls, .next el)
  | member :: rest, el, calls =>
    let slot : RootSlot := { Frame := frame, Addr := member.Addr }
    let roots := getRootsFn slot
    match rootsLoop ProcessRoot slot roots el calls with
    | (calls1, .next el1) => membersLoop ProcessRoot getRootsFn frame rest el1 calls1
    | (calls1, .exit r) => (calls1, .exit r)

/-- The loop `for frame := ...; frame <= maxKnownFrame; frame++` of
`ProcessKnownRoots`. Every test of the loop condition uses one unit of `fuel`;
`none` means that the fuel ran out before the function returned. `frame++` is
done modulo `2 ^ 64`. -/
def framesLoop (ProcessRoot : ProcessRootFn) (maxKnownFrame : IdxFrame)
    (getRootsFn : GetRootsFn) :
    Nat → IdxFrame → Election → List Call → Option (List Call × Run (Election × Ret))
  | 0, _, _, _ => none
  | fuel + 1, frame, el, calls =>
    if frame ≤ maxKnownFrame then
      match membersLoop ProcessRoot getRootsFn frame el.members el calls with
      | (calls1, .next el1) =>
        framesLoop ProcessRoot maxKnownFrame getRootsFn fuel ((frame + 1) % uint64Size) el1 calls1
      | (calls1, .exit r) => some (calls1, r)
    else
      some (calls, .done (el, (none, none)))

/-- Source: `func (el *Election) ProcessKnownRoots(maxKnownFrame IdxFrame, getRootsFn GetRootsFn)
(*ElectionRes, error)`: the record of the `ProcessRoot` calls made and the
outcome, or `none` when `fuel` loop tests did not suffice. -/
def Election.ProcessKnownRoots (ProcessRoot : ProcessRootFn) (fuel : Nat) (el : Election)
    (maxKnownFrame : IdxFrame) (getRootsFn : GetRootsFn) :
    Option (List Call × Run (Election × Ret)) :=
  framesLoop ProcessRoot maxKnownFrame getRootsFn fuel
    ((el.frameToDecide + 1) % uint64Size) el []

/-! ## `sort_roots.go` -/

/-- Source: `type sortedRoot struct { stake Amount; root hash.Event }`. -/
structure sortedRoot where
  stake : Amount
  root : Event
deriving DecidableEq

/-- Source: `type sortedRoots []sortedRoot`. -/
abbrev sortedRoots := List sortedRoot

/-- The body of `sortedRoots.Less` on the two entries `s[i]` and `s[j]`. -/
def sortedRoot.Less (si sj : sortedRoot) : Bool :=
  if si.stake = sj.stake then
    decide (si.root.Big < sj.root.Big)
  else
    decide (si.stake > sj.stake)

/-- Source: `func (s sortedRoots) Len() int`. -/
def sortedRoots.Len (s : sortedRoots) : Nat := s.length

/-- Source: `func (s sortedRoots) Less(i, j int) bool`, for indices within the slice. -/
def sortedRoots.Less (s : sortedRoots) (i j : Fin s.length) : Bool :=
  sortedRoot.Less (s.get i) (s.get j)

/-- The contract of `sort.Sort` of the Go standard library, for a function
`sort` run on a slice of `sortedRoot`: the slice afterwards holds the same
entries, and no entry is `Less` than the entry before it (what `sort.IsSorted`
tests). Nothing is said about the order of entries that are not `Less` than one
another: the sort need not be stable. -/
structure SortContract (sort : sortedRoots → sortedRoots) : Prop where
  perm : ∀ s : sortedRoots, (sort s).Perm s
  sorted : ∀ s : sortedRoots, (sort s).Chain' (fun a b => sortedRoot.Less b a = false)

/-- The loop `for _, member := range el.members` of `chooseSfWitness`;
`finalRoots` is the slice built so far. -/
def chooseLoop (decidedRoots : AList (fun _ : Peer => voteValue)) :
    List Member → sortedRoots → Run sortedRoots
  | [], finalRoots => .done finalRoots
  | member :: rest, finalRoots =>
    match decidedRoots.lookup member.Addr with
    | none => .fatal "called before all the roots are decided"
    | some vote =>
      if vote.yes then
        chooseLoop decidedRoots rest (finalRoots ++ [{ root := vote.seenRoot, stake := member.Stake }])
      else
        chooseLoop decidedRoots rest finalRoots

/-- The message of the error that `chooseSfWitness` returns. -/
def errNoYesRoots : String :=
  "All the roots aren't decided as 'yes', which is possible only if more than 1/3n are Byzantine"

/-- Source: `func (el *Election) chooseSfWitness() (*ElectionRes, error)`, with the
library routine `sort.Sort` as the parameter `sort`. Indexing an empty slice at
`finalRoots[0]` is a run-time panic. -/
def Election.chooseSfWitness (sort : sortedRoots → sortedRoots) (el : Election) :
    Run (Election × Ret) :=
  match chooseLoop el.decidedRoots el.members [] with
  | .fatal msg => .fatal msg
  | .panic msg => .panic msg
  | .done finalRoots =>
    if finalRoots.length = 0 then
      .done (el, (none, some errNoYesRoots))
    else
      match sort finalRoots with
      | [] => .panic "index out of range"
      | first :: _ =>
        .done (el, (some { DecidedFrame := el.frameToDecide, DecidedSfWitness := first.root }, none))

/-- Insertion sort by `Less`, one routine that meets `SortContract`. -/
def insertionSortRoots (s : sortedRoots) : sortedRoots :=
  s.insertionSort (fun a b => sortedRoot.Less b a = false)

/-- Insertion sort by `Less` of the reversed slice, a second routine that meets
`SortContract`. -/
def reverseSortRoots (s : sortedRoots) : sortedRoots :=
  s.reverse.insertionSort (fun a b => sortedRoot.Less b a = false)

/-! ## `ProcessRoot`, modelled from the spec -/

/-- Modelled from the spec: the "empty" `seenRoot` of a vote that endorses no
event (`seenRoot: EventID-or-empty`), the all-zero identifier. -/
def emptyEvent : Event := ⟨Fin.ofNat' (2 ^ 256) 0⟩

/-- Modelled from the spec: whether the vote recorded in `votes` for the subject
`m` by the prior root `w.root` is a yes vote; a prior root without a recorded
vote for `m` counts for neither side. -/
def votedYes (votes : AList (fun _ : voteId => voteValue)) (m : Peer) (w : weightedRoot) : Bool :=
  match votes.lookup { fromRoot := w.root, forMember := m } with
  | some v => v.yes
  | none => false

/-- Modelled from the spec: whether the vote recorded for the subject `m` by
the prior root `w.root` is a no vote. -/
def votedNo (votes : AList (fun _ : voteId => voteValue)) (m : Peer) (w : weightedRoot) : Bool :=
  match votes.lookup { fromRoot := w.root, forMember := m } with
  | some v => !v.yes
  | none => false

/-- Modelled from the spec: the yes-stake sum of "partition into yes-stake and
no-stake sums", the sum of the stakes of the strongly seen prior roots whose
recorded vote for `m` is yes. Stake sums are integers ("all stake sums are
non-negative integers"): the sum is not reduced modulo `2 ^ 64`. -/
def yesStake (votes : AList (fun _ : voteId => voteValue)) (m : Peer)
    (seenRoots : List weightedRoot) : Amount :=
  ((seenRoots.filter (votedYes votes m)).map weightedRoot.stake).sum

/-- Modelled from the spec: the no-stake sum, the sum of the stakes of the
strongly seen prior roots whose recorded vote for `m` is no. -/
def noStake (votes : AList (fun _ : voteId => voteValue)) (m : Peer)
    (seenRoots : List weightedRoot) : Amount :=
  ((seenRoots.filter (votedNo votes m)).map weightedRoot.stake).sum

/-- Modelled from the spec: the "total supporting stake" of the event `e`, the
sum of the stakes of the prior roots whose yes vote for `m` endorses `e`. -/
def supportOf (votes : AList (fun _ : voteId => voteValue)) (m : Peer)
    (seenRoots : List weightedRoot) (e : Event) : Amount :=
  ((seenRoots.filter (fun w =>
    match votes.lookup { fromRoot := w.root, forMember := m } with
    | some v => v.yes && decide (v.seenRoot = e)
    | none => false)).map weightedRoot.stake).sum

/-- Modelled from the spec: the events endorsed by the yes votes for `m`, each
with its total supporting stake. -/
def yesCandidates (votes : AList (fun _ : voteId => voteValue)) (m : Peer)
    (seenRoots : List weightedRoot) : List sortedRoot :=
  seenRoots.filterMap (fun w =>
    match votes.lookup { fromRoot := w.root, forMember := m } with
    | some v =>
      if v.yes then
        some { stake := supportOf votes m seenRoots v.seenRoot, root := v.seenRoot }
      else none
    | none => none)

/-- Modelled from the spec: the "deterministic pick" among supported events, the
least entry of a list in the order of `Less` (greatest stake first, then
smallest identifier), if the list has an entry. -/
def leastByLess : List sortedRoot → Option sortedRoot
  | [] => none
  | a :: rest =>
    match leastByLess rest with
    | none => some a
    | some b => if sortedRoot.Less b a then some b else some a

/-- Modelled from the spec: "the seen event backing the yes vote with the
greatest total supporting stake (deterministic pick, ties broken by event-id
ordering)"; the empty event when there is no yes vote. -/
def bestSeenRoot (votes : AList (fun _ : voteId => voteValue)) (m : Peer)
    (seenRoots : List weightedRoot) : Event :=
  match leastByLess (yesCandidates votes m seenRoots) with
  | some c => c.root
  | none => emptyEvent

/-- Modelled from the spec: the round-1 vote of `processRoot` (its body is not
among the source files). "Query the oracle for whether `root` strongly sees the
event at `{targetFrame, m}`. If yes, record a vote `{decided:false, yes:true,
seenRoot:<that event>}`; else `{decided:false, yes:false, seenRoot:empty}`." -/
def firstRoundVote (el : Election) (root : Event) (m : Peer) : voteValue :=
  match el.stronglySee root { Frame := el.frameToDecide, Addr := m } with
  | some e => { decided := false, yes := true, seenRoot := e }
  | none => { decided := false, yes := false, seenRoot := emptyEvent }

/-- Modelled from the spec: the yes-stake sum that a root of frame `frame` sees
for the subject `m`, over the roots of frame `frame - 1` returned by
`stronglySeenRoots`. -/
def Election.priorYesStake (el : Election) (root : Event) (frame : IdxFrame) (m : Peer) : Amount :=
  yesStake el.votes m (el.stronglySeenRoots root (frame - 1)).2.1

/-- Modelled from the spec: the no-stake sum that a root of frame `frame` sees
for the subject `m`, over the roots of frame `frame - 1` returned by
`stronglySeenRoots`. -/
def Election.priorNoStake (el : Election) (root : Event) (frame : IdxFrame) (m : Peer) : Amount :=
  noStake el.votes m (el.stronglySeenRoots root (frame - 1)).2.1

/-- Modelled from the spec: the vote of `processRoot` in a round `>= 2`. "If
yes-stake >= superMajority: decide yes; seenRoot = the seen event backing the
yes vote with the greatest total supporting stake. Else if no-stake >=
superMajority: decide no; seenRoot = empty. Else: undecided; record a
provisional vote equal to the simple majority of the two stake sums (ties
default to no), carrying forward the best-supported seenRoot seen so far." -/
def laterRoundVote (el : Election) (root : Event) (frame : IdxFrame) (m : Peer) : voteValue :=
  let seenRoots := (el.stronglySeenRoots root (frame - 1)).2.1
  if el.priorYesStake root frame m ≥ el.superMajority then
    { decided := true, yes := true, seenRoot := bestSeenRoot el.votes m seenRoots }
  else if el.priorNoStake root frame m ≥ el.superMajority then
    { decided := true, yes := false, seenRoot := emptyEvent }
  else
    { decided := false
      yes := decide (el.priorYesStake root frame m > el.priorNoStake root frame m)
      seenRoot := bestSeenRoot el.votes m seenRoots }

/-- Modelled from the spec: the error with which `processRoot` rejects a slot
outside its preconditions; the spec gives no text for it. -/
def errBadSlot : String := "slot outside the preconditions of ProcessRoot"

/-- Modelled from the spec: the vote that `processRoot(root, slot)` computes for
the subject `slot.address`: the round-1 vote when `slot.frame == targetFrame + 1`,
the vote of a round `>= 2` when `slot.frame > targetFrame + 1`. -/
def roundVote (el : Election) (root : Event) (slot : RootSlot) : voteValue :=
  if slot.Frame = el.frameToDecide + 1 then firstRoundVote el root slot.Addr
  else laterRoundVote el root slot.Frame slot.Addr

/-- Modelled from the spec: "Store the computed vote at `VoteId{root, m}`. If
this round's vote is `decided=true`, move `m` from pending to `decidedRoots`
with that value." -/
def Election.recordVote (el : Election) (root : Event) (m : Peer) (vote : voteValue) : Election :=
  { el with
    votes := el.votes.insert { fromRoot := root, forMember := m } vote
    decidedRoots := if vote.decided then el.decidedRoots.insert m vote else el.decidedRoots }

/-- Modelled from the spec: `processRoot(root, slot)`, whose body
(`func (el *Election) ProcessRoot`) is not among the source files. A slot
outside the preconditions (`slot.frame > targetFrame`, `slot.address` is a known
member) is "rejected immediately as a caller-contract violation": an error is
returned and the state is left as it is. If the subject `m = slot.address` is
already decided, `(nil, nil)` is returned at once. Otherwise the vote of the
round is computed, stored at `VoteId{root, m}` and, if it is decided, entered
in `decidedRoots` for `m`; if every member is decided after that, the witness
selector `chooseSfWitness` gives the result, otherwise the result is
`(nil, nil)`. -/
def Election.ProcessRoot (sort : sortedRoots → sortedRoots) (el : Election) (root : Event)
    (slot : RootSlot) : Run (Election × Ret) :=
  if slot.Frame ≤ el.frameToDecide ∨ slot.Addr ∉ el.members.map Member.Addr then
    .done (el, (none, some errBadSlot))
  else
    match el.decidedRoots.lookup slot.Addr with
    | some _ => .done (el, (none, none))
    | none =>
      let el1 := el.recordVote root slot.Addr (roundVote el root slot)
      if el1.members.all (fun member => (el1.decidedRoots.lookup member.Addr).isSome) then
        el1.chooseSfWitness sort
      else
        .done (el1, (none, none))

/-- What holds of the state in which the loops of `ProcessKnownRoots` are left,
when `P` holds of every state: nothing is said of an aborted run. -/
def Flow.holds (P : Election → Prop) : Flow → Prop
  | .next el => P el
  | .exit (.done (el, _)) => P el
  | .exit (.fatal _) => True
  | .exit (.panic _) => True

/-! ## Notions used to state the properties -/

/-- Every member of the member list has an entry in `decidedRoots`. -/
abbrev Election.allDecided (el : Election) : Prop :=
  ∀ m ∈ el.members, (el.decidedRoots.lookup m.Addr).isSome = true

/-- The member `m` is decided with the vote `v`, and `v.yes` holds. -/
abbrev Election.decidedYes (el : Election) (m : Member) (v : voteValue) : Prop :=
  m ∈ el.members ∧ el.decidedRoots.lookup m.Addr = some v ∧ v.yes = true

/-- The entry that a member adds to `finalRoots` in `chooseSfWitness`, if any. -/
def yesRoot (decidedRoots : AList (fun _ : Peer => voteValue)) (m : Member) : Option sortedRoot :=
  match decidedRoots.lookup m.Addr with
  | some vote => if vote.yes then some { root := vote.seenRoot, stake := m.Stake } else none
  | none => none

/-- The slots that `ProcessKnownRoots` is said to visit, in the order in which
it is said to visit them: frame by frame for the frames `frameToDecide+1, ...,
maxKnownFrame` in increasing order, and within a frame member by member in the
order of the member list. -/
def slotsInOrder (el : Election) (maxKnownFrame : IdxFrame) : List RootSlot :=
  (List.range' (el.frameToDecide + 1) (maxKnownFrame - el.frameToDecide)).flatMap
    (fun frame => el.members.map (fun m => ({ Frame := frame, Addr := m.Addr } : RootSlot)))

/-- The `ProcessRoot` calls that `ProcessKnownRoots` is said to make when no
call stops it: for every slot in order, one call for every root that
`getRootsFn` returns for the slot, with that slot. -/
def callsInOrder (el : Election) (maxKnownFrame : IdxFrame) (getRootsFn : GetRootsFn) :
    List Call :=
  (slotsInOrder el maxKnownFrame).flatMap
    (fun slot => (getRootsFn slot).map (fun root => ({ root := root, slot := slot } : Call)))

/-- Makes the calls of a list one after the other, each on the state left by
the one before, and stops at the first call that is aborted or yields a non-nil
result or a non-nil error; `made` records the calls made. -/
def runCalls (ProcessRoot : ProcessRootFn) : List Call → Election → List Call → List Call × Flow
  | [], el, made => (made, .next el)
  | c :: rest, el, made =>
    match ProcessRoot el c.root c.slot with
    | .done (el1, (decided, err)) =>
      if decided.isSome || err.isSome then
        (made ++ [c], .exit (.done (el1, (decided, err))))
      else
        runCalls ProcessRoot rest el1 (made ++ [c])
    | .fatal msg => (made ++ [c], .exit (.fatal msg))
    | .panic msg => (made ++ [c], .exit (.panic msg))

/-- What a function returns when its loops are left as `flow`: `(nil, nil)`
after the loops ran to their end. -/
def Flow.finish : Flow → Run (Election × Ret)
  | .next el => .done (el, (none, none))
  | .exit r => r

/-- The calls made and the outcome when the calls of a list are made in order
up to the first one that yields a result, an error or an abort; `(nil, nil)`
when none does. -/
def firstOutcome (ProcessRoot : ProcessRootFn) (calls : List Call) (el : Election) :
    List Call × Run (Election × Ret) :=
  ((runCalls ProcessRoot calls el []).1, (runCalls ProcessRoot calls el []).2.finish)

/-! ## Example elections -/

/-- The peer with the identifier `n`. -/
def examplePeer (n : Nat) : Peer := ⟨Fin.ofNat' (2 ^ 256) n⟩

/-- The event with the identifier `n`. -/
def exampleEvent (n : Nat) : Event := ⟨Fin.ofNat' (2 ^ 256) n⟩

/-- Three members with the stakes 10, 20 and 20. -/
def exampleMembers : List Member :=
  [⟨examplePeer 1, 10⟩, ⟨examplePeer 2, 20⟩, ⟨examplePeer 3, 20⟩]

/-- All three members decided yes, with the roots 7, 9 and 8. -/
def exampleDecided : AList (fun _ : Peer => voteValue) :=
  (((∅ : AList (fun _ : Peer => voteValue)).insert (examplePeer 1)
    ⟨true, true, exampleEvent 7⟩).insert (examplePeer 2)
    ⟨true, true, exampleEvent 9⟩).insert (examplePeer 3) ⟨true, true, exampleEvent 8⟩

/-- All three members decided no. -/
def exampleDecidedNo : AList (fun _ : Peer => voteValue) :=
  (((∅ : AList (fun _ : Peer => voteValue)).insert (examplePeer 1)
    ⟨true, false, exampleEvent 0⟩).insert (examplePeer 2)
    ⟨true, false, exampleEvent 0⟩).insert (examplePeer 3) ⟨true, false, exampleEvent 0⟩

/-- Only the first member decided. -/
def exampleDecidedOne : AList (fun _ : Peer => voteValue) :=
  (∅ : AList (fun _ : Peer => voteValue)).insert (examplePeer 1) ⟨true, true, exampleEvent 7⟩

/-- An oracle under which a root strongly sees itself at every slot but those
of the second member. -/
def exampleOracle : RootStronglySeeRootFn :=
  fun a b => if b.Addr = examplePeer 2 then none else some a

/-- A fully decided election for frame 5 with three yes-decided members. -/
def exampleElection : Election :=
  { NewElection exampleMembers 50 34 5 exampleOracle with decidedRoots := exampleDecided }

/-- The same election with the member list in reverse order. -/
def exampleElectionReversed : Election :=
  { NewElection exampleMembers.reverse 50 34 5 exampleOracle with decidedRoots := exampleDecided }

/-- A fully decided election in which no member is decided yes. -/
def exampleElectionNo : Election :=
  { NewElection exampleMembers 50 34 5 exampleOracle with decidedRoots := exampleDecidedNo }

/-- An election in which two members are not decided yet. -/
def exampleElectionPending : Election :=
  { NewElection exampleMembers 50 34 5 exampleOracle with decidedRoots := exampleDecidedOne }

/-- An election whose member list holds the first member twice. -/
def exampleElectionDuplicate : Election :=
  { NewElection (⟨examplePeer 1, 10⟩ :: exampleMembers) 60 41 5 exampleOracle with
    decidedRoots := exampleDecidedOne }

/-- A stand-in for `ProcessRoot` that yields a result at the root 7 of a slot of
frame 7 and nothing elsewhere, and leaves the state as it is. -/
def exampleProcessRoot : ProcessRootFn :=
  fun el root slot =>
    if root = exampleEvent 7 ∧ slot.Frame = 7 then
      .done (el, (some { DecidedFrame := el.frameToDecide, DecidedSfWitness := root }, none))
    else
      .done (el, (none, none))

/-- Roots per slot: the second member forks (two roots), the others have one
root, numbered after the frame. -/
def exampleGetRoots : GetRootsFn :=
  fun slot =>
    if slot.Addr = examplePeer 2 then [exampleEvent 6, exampleEvent 7]
    else [exampleEvent slot.Frame]

/-- A stand-in for `ProcessRoot` that never yields a result or an error and
leaves the state as it is. -/
def idleProcessRoot : ProcessRootFn :=
  fun el _ _ => .done (el, (none, none))

/-- An election whose `frameToDecide` is the greatest `uint64`, `2^64-1`. -/
def exampleElectionLastFrame : Election :=
  NewElection exampleMembers 50 34 (2 ^ 64 - 1) exampleOracle

/-! ## The order of `Less` -/

theorem less_eq_false_iff (a b : sortedRoot) :
    sortedRoot.Less b a = false ↔
      (b.stake < a.stake ∨ (a.stake = b.stake ∧ a.root.Big ≤ b.root.Big)) := by
  unfold sortedRoot.Less
  unfold Amount at *
  split
  · rename_i h
    simp only [decide_eq_false_iff_not, not_lt]
    constructor
    · intro hle; exact Or.inr ⟨h.symm, hle⟩
    · rintro (hlt | ⟨_, hle⟩)
      · omega
      · exact hle
  · rename_i h
    simp only [gt_iff_lt, decide_eq_false_iff_not, not_lt]
    constructor
    · intro hle; exact Or.inl (by omega)
    · rintro (hlt | ⟨heq, _⟩)
      · omega
      · exact absurd heq.symm h

theorem less_self (a : sortedRoot) : sortedRoot.Less a a = false := by
  rw [less_eq_false_iff]; exact Or.inr ⟨rfl, le_refl _⟩

theorem Event.big_injective {e1 e2 : Event} (h : e1.Big = e2.Big) : e1 = e2 := by
  cases e1; cases e2
  simp only [Event.Big] at h
  simp only [Event.mk.injEq]
  exact Fin.ext h

theorem eq_of_not_less {a b : sortedRoot} (hab : sortedRoot.Less a b = false)
    (hba : sortedRoot.Less b a = false) : a = b := by
  rw [less_eq_false_iff] at hab hba
  unfold Amount at *
  have hs : a.stake = b.stake := by unfold Amount; omega
  have hb : a.root.Big = b.root.Big := by omega
  cases a; cases b
  simp only [sortedRoot.mk.injEq]
  exact ⟨hs, Event.big_injective hb⟩

theorem notLess_trans : IsTrans sortedRoot (fun a b => sortedRoot.Less b a = false) where
  trans a b c hab hbc := by
    rw [less_eq_false_iff] at hab hbc ⊢
    unfold Amount at *
    omega

theorem notLess_total : IsTotal sortedRoot (fun a b => sortedRoot.Less b a = false) where
  total a b := by
    simp only [less_eq_false_iff]
    unfold Amount at *
    omega

theorem insertionSortRoots_contract : SortContract insertionSortRoots where
  perm s := List.perm_insertionSort _ s
  sorted s := by
    haveI := notLess_trans
    haveI := notLess_total
    exact (List.sorted_insertionSort (fun a b => sortedRoot.Less b a = false) s).chain'

theorem reverseSortRoots_contract : SortContract reverseSortRoots where
  perm s := (List.perm_insertionSort _ s.reverse).trans (List.reverse_perm s)
  sorted s := by
    haveI := notLess_trans
    haveI := notLess_total
    exact (List.sorted_insertionSort (fun a b => sortedRoot.Less b a = false) s.reverse).chain'

/-- Under the contract of `sort.Sort` no entry of the slice is `Less` than the
first entry of the sorted slice. -/
theorem head_minimal {sort : sortedRoots → sortedRoots} (hsort : SortContract sort)
    {s : sortedRoots} {first : sortedRoot} {rest : sortedRoots}
    (hs : sort s = first :: rest) : ∀ x ∈ s, sortedRoot.Less x first = false := by
  intro x hx
  have hc := hsort.sorted s
  rw [hs] at hc
  haveI := notLess_trans
  have hp := List.chain'_iff_pairwise.mp hc
  have hx1 : x ∈ first :: rest := by
    rw [← hs]; exact (hsort.perm s).mem_iff.mpr hx
  rcases List.mem_cons.mp hx1 with h | h
  · subst h; exact less_self x
  · exact (List.pairwise_cons.mp hp).1 x h

theorem head_mem {sort : sortedRoots → sortedRoots} (hsort : SortContract sort)
    {s : sortedRoots} {first : sortedRoot} {rest : sortedRoots}
    (hs : sort s = first :: rest) : first ∈ s := by
  have h1 : first ∈ sort s := by rw [hs]; exact List.mem_cons_self _ _
  exact (hsort.perm s).mem_iff.mp h1

theorem sort_ne_nil {sort : sortedRoots → sortedRoots} (hsort : SortContract sort)
    {s : sortedRoots} (hs : s ≠ []) : ∃ first rest, sort s = first :: rest := by
  cases h : sort s with
  | nil =>
    have hp := hsort.perm s
    rw [h] at hp
    exact absurd hp.symm.eq_nil hs
  | cons first rest => exact ⟨first, rest, rfl⟩

/-! ## The loop of `chooseSfWitness` -/

theorem chooseLoop_done (d : AList (fun _ : Peer => voteValue)) :
    ∀ (ms : List Member) (acc : sortedRoots),
      (∀ m ∈ ms, (d.lookup m.Addr).isSome = true) →
      chooseLoop d ms acc = .done (acc ++ ms.filterMap (yesRoot d))
  | [], acc, _ => by simp [chooseLoop]
  | m :: rest, acc, h => by
    have hm := h m (List.mem_cons_self _ _)
    have hrest : ∀ x ∈ rest, (d.lookup x.Addr).isSome = true :=
      fun x hx => h x (List.mem_cons_of_mem _ hx)
    obtain ⟨v, hv⟩ := Option.isSome_iff_exists.mp hm
    by_cases hy : v.yes = true
    · simp [chooseLoop, hv, hy, yesRoot, chooseLoop_done d rest _ hrest]
    · simp [chooseLoop, hv, hy, yesRoot, chooseLoop_done d rest _ hrest]

theorem chooseLoop_fatal (d : AList (fun _ : Peer => voteValue)) :
    ∀ (ms : List Member) (acc : sortedRoots),
      (∃ m ∈ ms, d.lookup m.Addr = none) →
      chooseLoop d ms acc = .fatal "called before all the roots are decided"
  | [], _, h => by
    obtain ⟨m, hm, _⟩ := h
    exact absurd hm (List.not_mem_nil m)
  | m :: rest, acc, h => by
    cases hv : d.lookup m.Addr with
    | none => simp [chooseLoop, hv]
    | some v =>
      have hrest : ∃ x ∈ rest, d.lookup x.Addr = none := by
        obtain ⟨x, hx, hxn⟩ := h
        rcases List.mem_cons.mp hx with h1 | h1
        · subst h1; rw [hv] at hxn; cases hxn
        · exact ⟨x, h1, hxn⟩
      by_cases hy : v.yes = true
      · simp [chooseLoop, hv, hy, chooseLoop_fatal d rest _ hrest]
      · simp [chooseLoop, hv, hy, chooseLoop_fatal d rest _ hrest]

theorem mem_yesRoots_iff (d : AList (fun _ : Peer => voteValue)) (ms : List Member)
    (x : sortedRoot) :
    x ∈ ms.filterMap (yesRoot d) ↔
      ∃ m ∈ ms, ∃ v, d.lookup m.Addr = some v ∧ v.yes = true ∧
        x = { root := v.seenRoot, stake := m.Stake } := by
  rw [List.mem_filterMap]
  constructor
  · rintro ⟨m, hm, hx⟩
    refine ⟨m, hm, ?_⟩
    unfold yesRoot at hx
    split at hx
    · rename_i vote hv
      split at hx
      · rename_i hy
        exact ⟨vote, hv, hy, (Option.some.inj hx).symm⟩
      · cases hx
    · cases hx
  · rintro ⟨m, hm, v, hv, hy, hx⟩
    exact ⟨m, hm, by simp [yesRoot, hv, hy, hx]⟩

theorem chooseSfWitness_of_allDecided (sort : sortedRoots → sortedRoots) (el : Election)
    (hall : el.allDecided) :
    el.chooseSfWitness sort =
      if (el.members.filterMap (yesRoot el.decidedRoots)).length = 0 then
        .done (el, (none, some errNoYesRoots))
      else
        match sort (el.members.filterMap (yesRoot el.decidedRoots)) with
        | [] => .panic "index out of range"
        | first :: _ =>
          .done (el, (some { DecidedFrame := el.frameToDecide,
                             DecidedSfWitness := first.root }, none)) := by
  have hloop := chooseLoop_done el.decidedRoots el.members [] hall
  simp only [List.nil_append] at hloop
  unfold Election.chooseSfWitness
  rw [hloop]

theorem yesRoots_ne_nil_iff (el : Election) :
    el.members.filterMap (yesRoot el.decidedRoots) ≠ [] ↔ ∃ m v, el.decidedYes m v := by
  constructor
  · intro hne
    obtain ⟨x, hx⟩ := List.exists_mem_of_ne_nil _ hne
    obtain ⟨m, hm, v, hv, hy, _⟩ := (mem_yesRoots_iff _ _ _).mp hx
    exact ⟨m, v, hm, hv, hy⟩
  · rintro ⟨m, v, hm, hv, hy⟩ h
    have hmem : ({ root := v.seenRoot, stake := m.Stake } : sortedRoot) ∈
        el.members.filterMap (yesRoot el.decidedRoots) :=
      (mem_yesRoots_iff _ _ _).mpr ⟨m, hm, v, hv, hy, rfl⟩
    rw [h] at hmem
    exact absurd hmem (List.not_mem_nil _)

/-! ## Witness selection -/

/-- C1. When every member has an entry in `decidedRoots` and some member is
decided yes, `chooseSfWitness` (with any sort that meets the contract of
`sort.Sort`) returns, without error, a result whose `DecidedFrame` is
`frameToDecide` and whose `DecidedSfWitness` is the `seenRoot` of a yes-decided
member `m` such that every yes-decided member has at most the stake of `m`, and
every yes-decided member with the stake of `m` has a `seenRoot` whose `Big()` is
at least that of the chosen one. -/
theorem chooseSfWitness_selects (sort : sortedRoots → sortedRoots) (hsort : SortContract sort)
    (el : Election) (hall : el.allDecided) (hyes : ∃ m v, el.decidedYes m v) :
    ∃ res : ElectionRes,
      el.chooseSfWitness sort = .done (el, (some res, none)) ∧
      res.DecidedFrame = el.frameToDecide ∧
      ∃ m v, el.decidedYes m v ∧ res.DecidedSfWitness = v.seenRoot ∧
        ∀ m1 v1, el.decidedYes m1 v1 →
          m1.Stake ≤ m.Stake ∧ (m1.Stake = m.Stake → v.seenRoot.Big ≤ v1.seenRoot.Big) := by
  have hne := (yesRoots_ne_nil_iff el).mpr hyes
  obtain ⟨first, rest, hs⟩ := sort_ne_nil hsort hne
  obtain ⟨m, hm, v, hv, hy, hfirst⟩ := (mem_yesRoots_iff _ _ _).mp (head_mem hsort hs)
  refine ⟨⟨el.frameToDecide, first.root⟩, ?_, rfl, m, v, ⟨hm, hv, hy⟩, by rw [hfirst], ?_⟩
  · rw [chooseSfWitness_of_allDecided sort el hall, hs]
    simp [hne]
  · rintro m1 v1 ⟨hm1, hv1, hy1⟩
    have hmin := head_minimal hsort hs { root := v1.seenRoot, stake := m1.Stake }
      ((mem_yesRoots_iff _ _ _).mpr ⟨m1, hm1, v1, hv1, hy1, rfl⟩)
    rw [less_eq_false_iff, hfirst] at hmin
    simp only at hmin
    unfold Amount at *
    omega

theorem chooseSfWitness_selects_witness :
    SortContract insertionSortRoots ∧ exampleElection.allDecided ∧
    (∃ m v, exampleElection.decidedYes m v) ∧
    ∃ res : ElectionRes,
      exampleElection.chooseSfWitness insertionSortRoots =
        .done (exampleElection, (some res, none)) ∧
      res.DecidedFrame = exampleElection.frameToDecide ∧
      ∃ m v, exampleElection.decidedYes m v ∧ res.DecidedSfWitness = v.seenRoot ∧
        ∀ m1 v1, exampleElection.decidedYes m1 v1 →
          m1.Stake ≤ m.Stake ∧ (m1.Stake = m.Stake → v.seenRoot.Big ≤ v1.seenRoot.Big) :=
  ⟨insertionSortRoots_contract, by decide,
    ⟨⟨examplePeer 1, 10⟩, ⟨true, true, exampleEvent 7⟩, by decide⟩,
    chooseSfWitness_selects insertionSortRoots insertionSortRoots_contract exampleElection
      (by decide) ⟨⟨examplePeer 1, 10⟩, ⟨true, true, exampleEvent 7⟩, by decide⟩⟩

/-- C2. When every member has an entry in `decidedRoots`, `chooseSfWitness`
returns an error and no `ElectionRes` exactly when no member is decided yes
(an empty member list included); in that case the run is not aborted and the
outcome is the error `errNoYesRoots` with a nil result. This holds whatever the
sort routine does. -/
theorem chooseSfWitness_error_iff (sort : sortedRoots → sortedRoots) (el : Election)
    (hall : el.allDecided) :
    ((∃ el1 msg, el.chooseSfWitness sort = .done (el1, (none, some msg))) ↔
        ¬ ∃ m v, el.decidedYes m v) ∧
    ((¬ ∃ m v, el.decidedYes m v) →
        el.chooseSfWitness sort = .done (el, (none, some errNoYesRoots)) ∧
        (el.chooseSfWitness sort).aborted = false) := by
  have hcases := chooseSfWitness_of_allDecided sort el hall
  have hiff := yesRoots_ne_nil_iff el
  have hno : (¬ ∃ m v, el.decidedYes m v) →
      el.chooseSfWitness sort = .done (el, (none, some errNoYesRoots)) := by
    intro h
    have hnil : el.members.filterMap (yesRoot el.decidedRoots) = [] := by
      by_contra hne
      exact h (hiff.mp hne)
    rw [hcases, hnil]
    simp
  refine ⟨⟨?_, fun h => ⟨_, _, hno h⟩⟩, fun h => ⟨hno h, by rw [hno h]; rfl⟩⟩
  rintro ⟨el1, msg, hret⟩ hyes
  have hne := hiff.mpr hyes
  have hlen : ¬ (el.members.filterMap (yesRoot el.decidedRoots)).length = 0 := by
    intro h0
    exact hne (List.length_eq_zero.mp h0)
  rw [hcases, if_neg hlen] at hret
  cases hsorted : sort (el.members.filterMap (yesRoot el.decidedRoots)) with
  | nil => rw [hsorted] at hret; cases hret
  | cons first rest => rw [hsorted] at hret; cases hret

theorem chooseSfWitness_error_iff_witness :
    exampleElectionNo.allDecided ∧
    ((∃ el1 msg, exampleElectionNo.chooseSfWitness insertionSortRoots =
          .done (el1, (none, some msg))) ↔
        ¬ ∃ m v, exampleElectionNo.decidedYes m v) ∧
    ((¬ ∃ m v, exampleElectionNo.decidedYes m v) →
        exampleElectionNo.chooseSfWitness insertionSortRoots =
          .done (exampleElectionNo, (none, some errNoYesRoots)) ∧
        (exampleElectionNo.chooseSfWitness insertionSortRoots).aborted = false) :=
  ⟨by decide, chooseSfWitness_error_iff insertionSortRoots exampleElectionNo (by decide)⟩

/-- C3. Witness selection does not depend on the order of the member list, nor
on which sort routine is run as long as it meets the contract of `sort.Sort`
(which leaves the order of equal entries open): two fully decided elections with
the same `frameToDecide`, the same content of `decidedRoots` and member lists
that are permutations of one another return the same outcome. -/
theorem chooseSfWitness_perm (sort1 sort2 : sortedRoots → sortedRoots)
    (hsort1 : SortContract sort1) (hsort2 : SortContract sort2) (el1 el2 : Election)
    (hframe : el1.frameToDecide = el2.frameToDecide)
    (hroots : ∀ p : Peer, el1.decidedRoots.lookup p = el2.decidedRoots.lookup p)
    (hperm : el1.members.Perm el2.members) (hall : el1.allDecided) :
    (el1.chooseSfWitness sort1).map Prod.snd = (el2.chooseSfWitness sort2).map Prod.snd := by
  have hall2 : el2.allDecided := by
    intro m hm
    rw [← hroots]
    exact hall m (hperm.mem_iff.mpr hm)
  have hfun : yesRoot el1.decidedRoots = yesRoot el2.decidedRoots := by
    funext m
    simp only [yesRoot, hroots]
  have hyes : (el1.members.filterMap (yesRoot el1.decidedRoots)).Perm
      (el2.members.filterMap (yesRoot el2.decidedRoots)) := by
    rw [hfun]
    exact hperm.filterMap _
  rw [chooseSfWitness_of_allDecided sort1 el1 hall, chooseSfWitness_of_allDecided sort2 el2 hall2]
  by_cases hnil : el1.members.filterMap (yesRoot el1.decidedRoots) = []
  · have hnil2 : el2.members.filterMap (yesRoot el2.decidedRoots) = [] := by
      rw [hnil] at hyes
      exact hyes.symm.eq_nil
    rw [hnil, hnil2]
    rfl
  · have hne2 : el2.members.filterMap (yesRoot el2.decidedRoots) ≠ [] := by
      intro h2
      rw [h2] at hyes
      exact hnil hyes.eq_nil
    obtain ⟨f1, r1, hs1⟩ := sort_ne_nil hsort1 hnil
    obtain ⟨f2, r2, hs2⟩ := sort_ne_nil hsort2 hne2
    have h12 : sortedRoot.Less f1 f2 = false :=
      head_minimal hsort2 hs2 f1 (hyes.mem_iff.mp (head_mem hsort1 hs1))
    have h21 : sortedRoot.Less f2 f1 = false :=
      head_minimal hsort1 hs1 f2 (hyes.mem_iff.mpr (head_mem hsort2 hs2))
    have heq : f1 = f2 := eq_of_not_less h12 h21
    have hl1 : ¬ (el1.members.filterMap (yesRoot el1.decidedRoots)).length = 0 :=
      fun h0 => hnil (List.length_eq_zero.mp h0)
    have hl2 : ¬ (el2.members.filterMap (yesRoot el2.decidedRoots)).length = 0 :=
      fun h0 => hne2 (List.length_eq_zero.mp h0)
    rw [if_neg hl1, if_neg hl2, hs1, hs2, heq, hframe]
    rfl

theorem chooseSfWitness_perm_witness :
    SortContract insertionSortRoots ∧ SortContract reverseSortRoots ∧
    exampleElection.frameToDecide = exampleElectionReversed.frameToDecide ∧
    (∀ p : Peer, exampleElection.decidedRoots.lookup p =
      exampleElectionReversed.decidedRoots.lookup p) ∧
    exampleElection.members.Perm exampleElectionReversed.members ∧
    exampleElection.allDecided ∧
    (exampleElection.chooseSfWitness insertionSortRoots).map Prod.snd =
      (exampleElectionReversed.chooseSfWitness reverseSortRoots).map Prod.snd :=
  ⟨insertionSortRoots_contract, reverseSortRoots_contract, rfl, fun _ => rfl,
    (List.reverse_perm exampleMembers).symm, by decide,
    chooseSfWitness_perm insertionSortRoots reverseSortRoots insertionSortRoots_contract
      reverseSortRoots_contract exampleElection exampleElectionReversed rfl (fun _ => rfl)
      (List.reverse_perm exampleMembers).symm (by decide)⟩

/-- C9. `chooseSfWitness` gives a result only once all members are decided: if
some member of the member list has no entry in `decidedRoots`, the run is
aborted by the fatal "called before all the roots are decided" (so neither a
result nor the empty-yes-set error is returned); and if every member has an
entry, the run is not aborted (the sort meeting the contract of `sort.Sort`). -/
theorem chooseSfWitness_fatal_iff (sort : sortedRoots → sortedRoots) (el : Election) :
    ((∃ m ∈ el.members, el.decidedRoots.lookup m.Addr = none) →
        el.chooseSfWitness sort = .fatal "called before all the roots are decided") ∧
    (SortContract sort → el.allDecided → (el.chooseSfWitness sort).aborted = false) := by
  constructor
  · intro h
    unfold Election.chooseSfWitness
    rw [chooseLoop_fatal el.decidedRoots el.members [] h]
  · intro hsort hall
    rw [chooseSfWitness_of_allDecided sort el hall]
    by_cases hnil : el.members.filterMap (yesRoot el.decidedRoots) = []
    · rw [hnil]; rfl
    · obtain ⟨first, rest, hs⟩ := sort_ne_nil hsort hnil
      have hl : ¬ (el.members.filterMap (yesRoot el.decidedRoots)).length = 0 :=
        fun h0 => hnil (List.length_eq_zero.mp h0)
      rw [if_neg hl, hs]
      rfl

theorem chooseSfWitness_fatal_iff_witness :
    (∃ m ∈ exampleElectionPending.members,
      exampleElectionPending.decidedRoots.lookup m.Addr = none) ∧
    exampleElectionPending.chooseSfWitness insertionSortRoots =
      .fatal "called before all the roots are decided" ∧
    SortContract insertionSortRoots ∧ exampleElection.allDecided ∧
    (exampleElection.chooseSfWitness insertionSortRoots).aborted = false :=
  ⟨⟨⟨examplePeer 2, 20⟩, by decide, by decide⟩,
    (chooseSfWitness_fatal_iff insertionSortRoots exampleElectionPending).1
      ⟨⟨examplePeer 2, 20⟩, by decide, by decide⟩,
    insertionSortRoots_contract, by decide,
    (chooseSfWitness_fatal_iff insertionSortRoots exampleElection).2
      insertionSortRoots_contract (by decide)⟩

/-! ## `ResetElection` and `notDecidedRoots` -/

theorem notDecidedLoop_eq (d : AList (fun _ : Peer => voteValue)) :
    ∀ (ms : List Member) (acc : List Peer),
      notDecidedLoop d ms acc =
        acc ++ (ms.filter (fun m => (d.lookup m.Addr).isNone)).map Member.Addr
  | [], acc => by simp [notDecidedLoop]
  | m :: rest, acc => by
    cases hv : d.lookup m.Addr with
    | none => simp [notDecidedLoop, hv, notDecidedLoop_eq d rest]
    | some v => simp [notDecidedLoop, hv, notDecidedLoop_eq d rest]

theorem mapLen_eq_keys_length (d : AList (fun _ : Peer => voteValue)) :
    mapLen d = d.keys.length := by
  simp [mapLen, AList.keys, List.keys]

theorem decided_count (d : AList (fun _ : Peer => voteValue)) (ms : List Member)
    (hnodup : (ms.map Member.Addr).Nodup)
    (hkeys : ∀ p ∈ d.keys, p ∈ ms.map Member.Addr) :
    (ms.filter (fun m => (d.lookup m.Addr).isSome)).length = d.keys.length := by
  have hlen : (ms.filter (fun m => (d.lookup m.Addr).isSome)).length =
      ((ms.map Member.Addr).filter (fun p => (d.lookup p).isSome)).length := by
    rw [List.filter_map, List.length_map]
    rfl
  rw [hlen]
  apply List.Perm.length_eq
  rw [List.perm_ext_iff_of_nodup (hnodup.filter _) d.keys_nodup]
  intro p
  rw [List.mem_filter, ← AList.mem_keys, ← AList.lookup_isSome]
  constructor
  · exact fun h => h.2
  · intro h
    exact ⟨hkeys p (AList.mem_keys.mp (AList.lookup_isSome.mp h)), h⟩

theorem undecided_add_decided (d : AList (fun _ : Peer => voteValue)) (ms : List Member) :
    (ms.filter (fun m => (d.lookup m.Addr).isNone)).length +
      (ms.filter (fun m => (d.lookup m.Addr).isSome)).length = ms.length := by
  have h := List.length_eq_length_filter_add (l := ms) (fun m => (d.lookup m.Addr).isSome)
  have hfun : (fun m : Member => !(d.lookup m.Addr).isSome) =
      (fun m : Member => (d.lookup m.Addr).isNone) := by
    funext m
    cases d.lookup m.Addr <;> rfl
  rw [hfun] at h
  omega

/-- C5. After `ResetElection(F)` the votes map is empty, the `decidedRoots` map
is empty and `frameToDecide` is `F`; the state after the reset is the same
whatever votes, `decidedRoots` and `frameToDecide` were held before it. -/
theorem ResetElection_clears (el : Election) (F : IdxFrame) :
    (el.ResetElection F).votes = ∅ ∧ mapLen (el.ResetElection F).votes = 0 ∧
    (el.ResetElection F).decidedRoots = ∅ ∧ mapLen (el.ResetElection F).decidedRoots = 0 ∧
    (el.ResetElection F).frameToDecide = F ∧
    ∀ (votes : AList (fun _ : voteId => voteValue))
      (decidedRoots : AList (fun _ : Peer => voteValue)) (frame : IdxFrame),
      Election.ResetElection
        { el with votes := votes, decidedRoots := decidedRoots, frameToDecide := frame } F =
      el.ResetElection F :=
  ⟨rfl, rfl, rfl, rfl, rfl, fun _ _ _ => rfl⟩

/-- C6. After `ResetElection(F)`, whatever was decided before, `notDecidedRoots`
passes its sanity check (no fatal abort) and returns the address of every member
of the member list, in member order; no member has an entry in `decidedRoots`. -/
theorem notDecidedRoots_after_reset (el : Election) (F : IdxFrame) :
    (el.ResetElection F).notDecidedRoots =
      .done (el.ResetElection F, el.members.map Member.Addr) ∧
    (el.members.map Member.Addr).length + mapLen (el.ResetElection F).decidedRoots =
      (el.ResetElection F).members.length ∧
    ∀ m ∈ el.members, (el.ResetElection F).decidedRoots.lookup m.Addr = none := by
  have hloop : notDecidedLoop (∅ : AList (fun _ : Peer => voteValue)) el.members [] =
      el.members.map Member.Addr := by
    rw [notDecidedLoop_eq]
    simp [AList.lookup_empty]
  refine ⟨?_, ?_, fun m _ => AList.lookup_empty _⟩
  · unfold Election.notDecidedRoots
    simp only [Election.ResetElection, hloop]
    simp [mapLen]
  · simp [Election.ResetElection, mapLen]

/-- C7. Completeness count: when the member addresses are pairwise distinct and
every key of `decidedRoots` is the address of a member, `notDecidedRoots`
returns (the fatal "Mismatch of roots" is not reached) and
`len(notDecidedRoots) + len(decidedRoots) = len(members)`; put the other way
round, when `notDecidedRoots` is aborted, the member list has a duplicate
address or `decidedRoots` holds a key that is no member's address. -/
theorem notDecidedRoots_count (el : Election) :
    ((el.members.map Member.Addr).Nodup →
      (∀ p ∈ el.decidedRoots.keys, p ∈ el.members.map Member.Addr) →
      ∃ nd, el.notDecidedRoots = .done (el, nd) ∧
        nd.length + mapLen el.decidedRoots = el.members.length) ∧
    ((el.notDecidedRoots).aborted = true →
      el.notDecidedRoots = .fatal "Mismatch of roots" ∧
      (¬ (el.members.map Member.Addr).Nodup ∨
        ∃ p ∈ el.decidedRoots.keys, p ∉ el.members.map Member.Addr)) := by
  have hgood : (el.members.map Member.Addr).Nodup →
      (∀ p ∈ el.decidedRoots.keys, p ∈ el.members.map Member.Addr) →
      (notDecidedLoop el.decidedRoots el.members []).length + mapLen el.decidedRoots =
        el.members.length := by
    intro hnodup hkeys
    rw [notDecidedLoop_eq, List.nil_append, List.length_map, mapLen_eq_keys_length,
      ← decided_count el.decidedRoots el.members hnodup hkeys]
    exact undecided_add_decided el.decidedRoots el.members
  constructor
  · intro hnodup hkeys
    refine ⟨notDecidedLoop el.decidedRoots el.members [], ?_, hgood hnodup hkeys⟩
    unfold Election.notDecidedRoots
    simp [hgood hnodup hkeys]
  · intro hab
    by_cases hsum : (notDecidedLoop el.decidedRoots el.members []).length +
        mapLen el.decidedRoots = el.members.length
    · have hdone : el.notDecidedRoots =
          .done (el, notDecidedLoop el.decidedRoots el.members []) := by
        unfold Election.notDecidedRoots
        simp [hsum]
      rw [hdone] at hab
      cases hab
    · refine ⟨by unfold Election.notDecidedRoots; simp [hsum], ?_⟩
      by_contra hcon
      push_neg at hcon
      exact hsum (hgood hcon.1 hcon.2)

theorem notDecidedRoots_count_witness :
    (exampleElectionPending.members.map Member.Addr).Nodup ∧
    (∀ p ∈ exampleElectionPending.decidedRoots.keys,
      p ∈ exampleElectionPending.members.map Member.Addr) ∧
    (∃ nd, exampleElectionPending.notDecidedRoots = .done (exampleElectionPending, nd) ∧
      nd.length + mapLen exampleElectionPending.decidedRoots =
        exampleElectionPending.members.length) ∧
    (exampleElectionDuplicate.notDecidedRoots).aborted = true ∧
    exampleElectionDuplicate.notDecidedRoots = .fatal "Mismatch of roots" ∧
    (¬ (exampleElectionDuplicate.members.map Member.Addr).Nodup ∨
      ∃ p ∈ exampleElectionDuplicate.decidedRoots.keys,
        p ∉ exampleElectionDuplicate.members.map Member.Addr) :=
  ⟨by decide, by decide,
    (notDecidedRoots_count exampleElectionPending).1 (by decide) (by decide),
    by decide,
    (notDecidedRoots_count exampleElectionDuplicate).2 (by decide)⟩

/-! ## `stronglySeenRoots` -/

theorem stronglySeenLoop_eq (stronglySee : RootStronglySeeRootFn) (root : Event)
    (frame : IdxFrame) :
    ∀ (ms : List Member) (seen : List weightedRoot) (asked : List OracleQuery),
      stronglySeenLoop stronglySee root frame ms seen asked =
        (seen ++ ms.filterMap (fun m =>
            (stronglySee root { Frame := frame, Addr := m.Addr }).map
              (fun e => ({ root := e, stake := m.Stake } : weightedRoot))),
         asked ++ ms.map (fun m =>
            ({ a := root, b := { Frame := frame, Addr := m.Addr } } : OracleQuery)))
  | [], seen, asked => by simp [stronglySeenLoop]
  | m :: rest, seen, asked => by
    cases hv : stronglySee root { Frame := frame, Addr := m.Addr } with
    | none => simp [stronglySeenLoop, hv, stronglySeenLoop_eq stronglySee root frame rest]
    | some e => simp [stronglySeenLoop, hv, stronglySeenLoop_eq stronglySee root frame rest]

/-- C8. `stronglySeenRoots(root, frame)` returns, in member order, one entry
`{root: e, stake: m.Stake}` for each member `m` for which the oracle returns an
event `e` at the slot `{frame, m.Addr}` and nothing for a member for which it
returns nil; the oracle is called once per member, in member order, with that
slot; the result has at most `len(members)` entries; the election state is
unchanged. -/
theorem stronglySeenRoots_spec (el : Election) (root : Event) (frame : IdxFrame) :
    el.stronglySeenRoots root frame =
      (el,
       el.members.filterMap (fun m =>
         (el.stronglySee root { Frame := frame, Addr := m.Addr }).map
           (fun e => ({ root := e, stake := m.Stake } : weightedRoot))),
       el.members.map (fun m =>
         ({ a := root, b := { Frame := frame, Addr := m.Addr } } : OracleQuery))) ∧
    (el.stronglySeenRoots root frame).2.1.length ≤ el.members.length ∧
    (el.stronglySeenRoots root frame).2.2.length = el.members.length := by
  have h : el.stronglySeenRoots root frame =
      (el,
       el.members.filterMap (fun m =>
         (el.stronglySee root { Frame := frame, Addr := m.Addr }).map
           (fun e => ({ root := e, stake := m.Stake } : weightedRoot))),
       el.members.map (fun m =>
         ({ a := root, b := { Frame := frame, Addr := m.Addr } } : OracleQuery))) := by
    unfold Election.stronglySeenRoots
    rw [stronglySeenLoop_eq]
    simp
  refine ⟨h, ?_, ?_⟩
  · rw [h]
    exact List.length_filterMap_le _ _
  · rw [h]
    simp

/-! ## `ProcessKnownRoots` -/

theorem runCalls_append (pr : ProcessRootFn) :
    ∀ (l1 l2 : List Call) (el : Election) (made : List Call),
      runCalls pr (l1 ++ l2) el made =
        match runCalls pr l1 el made with
        | (made1, .next el1) => runCalls pr l2 el1 made1
        | (made1, .exit r) => (made1, .exit r)
  | [], l2, el, made => by simp [runCalls]
  | c :: rest, l2, el, made => by
    cases h : pr el c.root c.slot with
    | fatal msg => simp [runCalls, h]
    | panic msg => simp [runCalls, h]
    | done a =>
      obtain ⟨el1, decided, err⟩ := a
      by_cases hret : (decided.isSome || err.isSome) = true
      · simp [runCalls, h, hret]
      · simp only [List.cons_append, runCalls, h, hret]
        exact runCalls_append pr rest l2 el1 _

theorem runCalls_members (pr : ProcessRootFn)
    (hmem : ∀ el0 root slot el1 r, pr el0 root slot = .done (el1, r) → el1.members = el0.members) :
    ∀ (l : List Call) (el : Election) (made made1 : List Call) (el1 : Election),
      runCalls pr l el made = (made1, .next el1) → el1.members = el.members
  | [], el, made, made1, el1, h => by
    simp only [runCalls, Prod.mk.injEq, Flow.next.injEq] at h
    rw [← h.2]
  | c :: rest, el, made, made1, el1, h => by
    cases hc : pr el c.root c.slot with
    | fatal msg => simp [runCalls, hc] at h
    | panic msg => simp [runCalls, hc] at h
    | done a =>
      obtain ⟨el2, decided, err⟩ := a
      by_cases hret : (decided.isSome || err.isSome) = true
      · simp [runCalls, hc, hret] at h
      · simp only [runCalls, hc, hret] at h
        rw [runCalls_members pr hmem rest el2 _ made1 el1 h]
        exact hmem _ _ _ _ _ hc

theorem runCalls_made (pr : ProcessRootFn) :
    ∀ (l : List Call) (el : Election) (made : List Call),
      ∃ k, (runCalls pr l el made).1 = made ++ l.take k
  | [], el, made => ⟨0, by simp [runCalls]⟩
  | c :: rest, el, made => by
    cases hc : pr el c.root c.slot with
    | fatal msg => exact ⟨1, by simp [runCalls, hc]⟩
    | panic msg => exact ⟨1, by simp [runCalls, hc]⟩
    | done a =>
      obtain ⟨el2, decided, err⟩ := a
      by_cases hret : (decided.isSome || err.isSome) = true
      · exact ⟨1, by simp [runCalls, hc, hret]⟩
      · obtain ⟨k, hk⟩ := runCalls_made pr rest el2 (made ++ [c])
        refine ⟨k + 1, ?_⟩
        simp only [runCalls, hc, hret, Bool.false_eq_true, if_false]
        rw [hk]
        simp

theorem rootsLoop_eq (pr : ProcessRootFn) (slot : RootSlot) :
    ∀ (roots : List Event) (el : Election) (calls : List Call),
      rootsLoop pr slot roots el calls =
        runCalls pr (roots.map (fun root => ({ root := root, slot := slot } : Call))) el calls
  | [], el, calls => by simp [rootsLoop, runCalls]
  | root :: rest, el, calls => by
    cases hc : pr el root slot with
    | fatal msg => simp [rootsLoop, runCalls, hc]
    | panic msg => simp [rootsLoop, runCalls, hc]
    | done a =>
      obtain ⟨el2, decided, err⟩ := a
      by_cases hret : (decided.isSome || err.isSome) = true
      · simp [rootsLoop, runCalls, hc, hret]
      · simp only [rootsLoop, runCalls, List.map_cons, hc, hret]
        exact rootsLoop_eq pr slot rest el2 _

theorem membersLoop_eq (pr : ProcessRootFn) (getRootsFn : GetRootsFn) (frame : IdxFrame) :
    ∀ (ms : List Member) (el : Election) (calls : List Call),
      membersLoop pr getRootsFn frame ms el calls =
        runCalls pr
          ((ms.map (fun m => ({ Frame := frame, Addr := m.Addr } : RootSlot))).flatMap
            (fun slot => (getRootsFn slot).map
              (fun root => ({ root := root, slot := slot } : Call)))) el calls
  | [], el, calls => by simp [membersLoop, runCalls]
  | m :: rest, el, calls => by
    simp only [membersLoop, List.map_cons, List.flatMap_cons, runCalls_append, rootsLoop_eq]
    split
    · rename_i calls1 el1 h
      exact membersLoop_eq pr getRootsFn frame rest el1 calls1
    · rfl

theorem framesLoop_eq (pr : ProcessRootFn)
    (hmem : ∀ el0 root slot el1 r, pr el0 root slot = .done (el1, r) → el1.members = el0.members)
    (maxKnownFrame : IdxFrame) (getRootsFn : GetRootsFn)
    (hmax : maxKnownFrame < 2 ^ 64 - 1) :
    ∀ (n : Nat) (frame : IdxFrame) (el : Election) (calls : List Call) (fuel : Nat),
      n = maxKnownFrame + 1 - frame → n < fuel →
      framesLoop pr maxKnownFrame getRootsFn fuel frame el calls =
        some
          ((runCalls pr
              ((List.range' frame n).flatMap (fun fr =>
                (el.members.map (fun m => ({ Frame := fr, Addr := m.Addr } : RootSlot))).flatMap
                  (fun slot => (getRootsFn slot).map
                    (fun root => ({ root := root, slot := slot } : Call))))) el calls).1,
           (runCalls pr
              ((List.range' frame n).flatMap (fun fr =>
                (el.members.map (fun m => ({ Frame := fr, Addr := m.Addr } : RootSlot))).flatMap
                  (fun slot => (getRootsFn slot).map
                    (fun root => ({ root := root, slot := slot } : Call))))) el calls).2.finish)
  | 0, frame, el, calls, fuel, hn, hfuel => by
    obtain ⟨fuel1, rfl⟩ : ∃ k, fuel = k + 1 := ⟨fuel - 1, by omega⟩
    have hgt : ¬ frame ≤ maxKnownFrame := by unfold IdxFrame at *; omega
    simp [framesLoop, hgt, runCalls, Flow.finish]
  | n + 1, frame, el, calls, fuel, hn, hfuel => by
    obtain ⟨fuel1, rfl⟩ : ∃ k, fuel = k + 1 := ⟨fuel - 1, by omega⟩
    have hle : frame ≤ maxKnownFrame := by unfold IdxFrame at *; omega
    have hwrap : (frame + 1) % uint64Size = frame + 1 := by
      unfold IdxFrame at *
      apply Nat.mod_eq_of_lt
      unfold uint64Size
      omega
    simp only [framesLoop, hle, if_true, membersLoop_eq, List.range'_succ, List.flatMap_cons,
      runCalls_append, hwrap]
    split
    · rename_i calls1 el1 h
      have hm : el1.members = el.members := runCalls_members pr hmem _ _ _ _ _ h
      have ih := framesLoop_eq pr hmem maxKnownFrame getRootsFn hmax n (frame + 1) el1 calls1
        fuel1 (by unfold IdxFrame at *; omega) (by omega)
      rw [ih, hm]
    · rfl

/-- C4. With `frameToDecide` and `maxKnownFrame` below `2^64-1`, a `ProcessRoot`
that leaves the member list as it is, and fuel for the loop tests,
`ProcessKnownRoots` makes the calls `ProcessRoot(root, slot)` of `callsInOrder`
(slots frame-major, frames `frameToDecide+1 .. maxKnownFrame` increasing,
members in list order, every root of `getRootsFn(slot)`) in that order, each on
the state left by the call before; it returns the outcome of the first call that
yields a result, an error or an abort and makes no call after it, and returns
`(nil, nil)` if no call yields one; with `maxKnownFrame <= frameToDecide` it
makes no call and returns `(nil, nil)`. -/
theorem ProcessKnownRoots_spec (ProcessRoot : ProcessRootFn)
    (hmem : ∀ el0 root slot el1 r,
      ProcessRoot el0 root slot = .done (el1, r) → el1.members = el0.members)
    (el : Election) (maxKnownFrame : IdxFrame) (getRootsFn : GetRootsFn)
    (hframe : el.frameToDecide < 2 ^ 64 - 1) (hmax : maxKnownFrame < 2 ^ 64 - 1)
    (fuel : Nat) (hfuel : maxKnownFrame - el.frameToDecide < fuel) :
    el.ProcessKnownRoots ProcessRoot fuel maxKnownFrame getRootsFn =
      some (firstOutcome ProcessRoot (callsInOrder el maxKnownFrame getRootsFn) el) ∧
    (firstOutcome ProcessRoot (callsInOrder el maxKnownFrame getRootsFn) el).1 <+:
      callsInOrder el maxKnownFrame getRootsFn ∧
    (maxKnownFrame ≤ el.frameToDecide →
      el.ProcessKnownRoots ProcessRoot fuel maxKnownFrame getRootsFn =
        some ([], .done (el, (none, none)))) := by
  have hwrap : (el.frameToDecide + 1) % uint64Size = el.frameToDecide + 1 := by
    unfold IdxFrame at *
    apply Nat.mod_eq_of_lt
    unfold uint64Size
    omega
  have hcalls : callsInOrder el maxKnownFrame getRootsFn =
      (List.range' (el.frameToDecide + 1) (maxKnownFrame - el.frameToDecide)).flatMap (fun fr =>
        (el.members.map (fun m => ({ Frame := fr, Addr := m.Addr } : RootSlot))).flatMap
          (fun slot => (getRootsFn slot).map
            (fun root => ({ root := root, slot := slot } : Call)))) := by
    unfold callsInOrder slotsInOrder
    rw [List.flatMap_assoc]
  have hrun : el.ProcessKnownRoots ProcessRoot fuel maxKnownFrame getRootsFn =
      some (firstOutcome ProcessRoot (callsInOrder el maxKnownFrame getRootsFn) el) := by
    unfold Election.ProcessKnownRoots firstOutcome
    rw [hwrap, hcalls]
    exact framesLoop_eq ProcessRoot hmem maxKnownFrame getRootsFn hmax
      (maxKnownFrame - el.frameToDecide) (el.frameToDecide + 1) el [] fuel
      (by unfold IdxFrame at *; omega) hfuel
  refine ⟨hrun, ?_, ?_⟩
  · obtain ⟨k, hk⟩ := runCalls_made ProcessRoot (callsInOrder el maxKnownFrame getRootsFn) el []
    unfold firstOutcome
    simp only [hk, List.nil_append]
    exact List.take_prefix _ _
  · intro hle
    have hzero : maxKnownFrame - el.frameToDecide = 0 := by unfold IdxFrame at *; omega
    rw [hrun]
    unfold firstOutcome
    rw [hcalls, hzero]
    simp [runCalls, Flow.finish]

theorem exampleProcessRoot_members :
    ∀ el0 root slot el1 r,
      exampleProcessRoot el0 root slot = .done (el1, r) → el1.members = el0.members := by
  intro el0 root slot el1 r h
  unfold exampleProcessRoot at h
  split at h
  · simp only [Run.done.injEq, Prod.mk.injEq] at h
    rw [← h.1]
  · simp only [Run.done.injEq, Prod.mk.injEq] at h
    rw [← h.1]

theorem ProcessKnownRoots_spec_witness :
    exampleElection.frameToDecide < 2 ^ 64 - 1 ∧ (7 : IdxFrame) < 2 ^ 64 - 1 ∧
    7 - exampleElection.frameToDecide < 3 ∧
    (exampleElection.ProcessKnownRoots exampleProcessRoot 3 7 exampleGetRoots =
        some (firstOutcome exampleProcessRoot
          (callsInOrder exampleElection 7 exampleGetRoots) exampleElection) ∧
      (firstOutcome exampleProcessRoot
          (callsInOrder exampleElection 7 exampleGetRoots) exampleElection).1 <+:
        callsInOrder exampleElection 7 exampleGetRoots ∧
      ((7 : IdxFrame) ≤ exampleElection.frameToDecide →
        exampleElection.ProcessKnownRoots exampleProcessRoot 3 7 exampleGetRoots =
          some ([], .done (exampleElection, (none, none))))) :=
  ⟨by decide, by decide, by decide,
    ProcessKnownRoots_spec exampleProcessRoot exampleProcessRoot_members exampleElection 7
      exampleGetRoots (by decide) (by decide) 3 (by decide)⟩

/-! ## `NewElection` -/

/-- C10, as the code has it: when `NewElection` is called with
`superMajority <= totalStake`, then in the election it returns and in every
state reached from it by any sequence of `ResetElection` calls,
`superMajority <= totalStake`; both fields keep the values of the arguments. -/
theorem superMajority_le_totalStake (members : List Member) (totalStake superMajority : Amount)
    (frameToDecide : IdxFrame) (stronglySeeFn : RootStronglySeeRootFn)
    (hle : superMajority ≤ totalStake) (frames : List IdxFrame) :
    (frames.foldl Election.ResetElection
        (NewElection members totalStake superMajority frameToDecide stronglySeeFn)).superMajority ≤
      (frames.foldl Election.ResetElection
        (NewElection members totalStake superMajority frameToDecide stronglySeeFn)).totalStake ∧
    (frames.foldl Election.ResetElection
        (NewElection members totalStake superMajority frameToDecide stronglySeeFn)).superMajority =
      superMajority ∧
    (frames.foldl Election.ResetElection
        (NewElection members totalStake superMajority frameToDecide stronglySeeFn)).totalStake =
      totalStake := by
  have hkeep : ∀ (fs : List IdxFrame) (el : Election),
      (fs.foldl Election.ResetElection el).superMajority = el.superMajority ∧
      (fs.foldl Election.ResetElection el).totalStake = el.totalStake := by
    intro fs
    induction fs with
    | nil => intro el; exact ⟨rfl, rfl⟩
    | cons f rest ih =>
      intro el
      simp only [List.foldl_cons]
      exact ih (el.ResetElection f)
  obtain ⟨h1, h2⟩ := hkeep frames
    (NewElection members totalStake superMajority frameToDecide stronglySeeFn)
  refine ⟨?_, h1, h2⟩
  rw [h1, h2]
  exact hle

theorem superMajority_le_totalStake_witness :
    (34 : Amount) ≤ 50 ∧
    (([6, 7] : List IdxFrame).foldl Election.ResetElection
        (NewElection exampleMembers 50 34 5 exampleOracle)).superMajority ≤
      (([6, 7] : List IdxFrame).foldl Election.ResetElection
        (NewElection exampleMembers 50 34 5 exampleOracle)).totalStake ∧
    (([6, 7] : List IdxFrame).foldl Election.ResetElection
        (NewElection exampleMembers 50 34 5 exampleOracle)).superMajority = 34 ∧
    (([6, 7] : List IdxFrame).foldl Election.ResetElection
        (NewElection exampleMembers 50 34 5 exampleOracle)).totalStake = 50 :=
  ⟨by decide,
    superMajority_le_totalStake exampleMembers 50 34 5 exampleOracle (by decide) [6, 7]⟩

/-- C10 as stated fails: `NewElection` stores the `totalStake` and the
`superMajority` it is given without comparing them. For an empty member list,
total stake 0 and the quorum `2/3n + 1 = 1`, the election it returns has
`superMajority > totalStake`. -/
theorem superMajority_gt_totalStake_example :
    ¬ ((NewElection [] 0 1 0 exampleOracle).superMajority ≤
        (NewElection [] 0 1 0 exampleOracle).totalStake) := by
  decide

/-! ## The comparator `Less` as an order -/

theorem less_eq_true_iff (a b : sortedRoot) :
    sortedRoot.Less a b = true ↔
      (a.stake > b.stake ∨ (a.stake = b.stake ∧ a.root.Big < b.root.Big)) := by
  unfold sortedRoot.Less
  unfold Amount at *
  split
  · rename_i h
    simp only [decide_eq_true_eq]
    constructor
    · intro hlt; exact Or.inr ⟨h, hlt⟩
    · rintro (hgt | ⟨_, hlt⟩)
      · omega
      · exact hlt
  · rename_i h
    simp only [gt_iff_lt, decide_eq_true_eq]
    constructor
    · intro hgt; exact Or.inl hgt
    · rintro (hgt | ⟨heq, _⟩)
      · exact hgt
      · exact absurd heq h

theorem sorted_head_unique (sort1 sort2 : sortedRoots → sortedRoots)
    (hsort1 : SortContract sort1) (hsort2 : SortContract sort2) (s1 s2 : sortedRoots)
    (hperm : s1.Perm s2) : (sort1 s1).head? = (sort2 s2).head? := by
  by_cases hnil : s1 = []
  · have hnil2 : s2 = [] := by rw [hnil] at hperm; exact hperm.symm.eq_nil
    have h1 : sort1 s1 = [] := by
      have hp := hsort1.perm s1
      rw [hnil] at hp ⊢
      exact hp.eq_nil
    have h2 : sort2 s2 = [] := by
      have hp := hsort2.perm s2
      rw [hnil2] at hp ⊢
      exact hp.eq_nil
    rw [h1, h2]
  · have hne2 : s2 ≠ [] := by
      intro h2
      rw [h2] at hperm
      exact hnil hperm.eq_nil
    obtain ⟨f1, r1, hs1⟩ := sort_ne_nil hsort1 hnil
    obtain ⟨f2, r2, hs2⟩ := sort_ne_nil hsort2 hne2
    have h12 : sortedRoot.Less f1 f2 = false :=
      head_minimal hsort2 hs2 f1 (hperm.mem_iff.mp (head_mem hsort1 hs1))
    have h21 : sortedRoot.Less f2 f1 = false :=
      head_minimal hsort1 hs1 f2 (hperm.mem_iff.mpr (head_mem hsort2 hs2))
    rw [hs1, hs2, eq_of_not_less h12 h21]
    rfl

/-- C15. The comparator `Less` is a strict total order on `(stake, root)`
entries: `Less(i, j)` holds exactly when `stake_i > stake_j`, or the stakes are
equal and `root_i.Big() < root_j.Big()`; it is irreflexive, asymmetric and
transitive; of two entries that differ in stake or in root exactly one is `Less`
than the other; hence the first entry of the sorted slice is the same value for
every routine that meets the contract of `sort.Sort` and every order of the
entries in the slice. -/
theorem Less_strict_total_order :
    (∀ a b : sortedRoot, sortedRoot.Less a b = true ↔
      (a.stake > b.stake ∨ (a.stake = b.stake ∧ a.root.Big < b.root.Big))) ∧
    (∀ (s : sortedRoots) (i j : Fin s.length), sortedRoots.Less s i j = true ↔
      ((s.get i).stake > (s.get j).stake ∨
        ((s.get i).stake = (s.get j).stake ∧ (s.get i).root.Big < (s.get j).root.Big))) ∧
    (∀ a : sortedRoot, sortedRoot.Less a a = false) ∧
    (∀ a b : sortedRoot, sortedRoot.Less a b = true → sortedRoot.Less b a = false) ∧
    (∀ a b c : sortedRoot, sortedRoot.Less a b = true → sortedRoot.Less b c = true →
      sortedRoot.Less a c = true) ∧
    (∀ a b : sortedRoot, (a.stake ≠ b.stake ∨ a.root ≠ b.root) →
      (sortedRoot.Less a b = true ∧ sortedRoot.Less b a = false) ∨
      (sortedRoot.Less a b = false ∧ sortedRoot.Less b a = true)) ∧
    (∀ (sort1 sort2 : sortedRoots → sortedRoots) (s1 s2 : sortedRoots),
      SortContract sort1 → SortContract sort2 → s1.Perm s2 →
      (sort1 s1).head? = (sort2 s2).head?) := by
  refine ⟨less_eq_true_iff, fun s i j => less_eq_true_iff _ _, less_self, ?_, ?_, ?_, ?_⟩
  · intro a b hab
    rw [less_eq_true_iff] at hab
    rw [less_eq_false_iff]
    unfold Amount at *
    omega
  · intro a b c hab hbc
    rw [less_eq_true_iff] at hab hbc ⊢
    unfold Amount at *
    omega
  · intro a b hne
    by_cases hab : sortedRoot.Less a b = true
    · left
      refine ⟨hab, ?_⟩
      rw [less_eq_true_iff] at hab
      rw [less_eq_false_iff]
      unfold Amount at *
      omega
    · right
      have hab1 : sortedRoot.Less a b = false := by
        cases h : sortedRoot.Less a b
        · rfl
        · exact absurd h hab
      refine ⟨hab1, ?_⟩
      cases hba : sortedRoot.Less b a
      · exfalso
        have heq := eq_of_not_less hab1 hba
        rcases hne with h | h
        · exact h (by rw [heq])
        · exact h (by rw [heq])
      · rfl
  · intro sort1 sort2 s1 s2 h1 h2 hperm
    exact sorted_head_unique sort1 sort2 h1 h2 s1 s2 hperm

theorem Less_strict_total_order_witness :
    (({ stake := 20, root := exampleEvent 9 } : sortedRoot).stake ≠
        ({ stake := 20, root := exampleEvent 8 } : sortedRoot).stake ∨
      ({ stake := 20, root := exampleEvent 9 } : sortedRoot).root ≠
        ({ stake := 20, root := exampleEvent 8 } : sortedRoot).root) ∧
    ((sortedRoot.Less { stake := 20, root := exampleEvent 9 }
          { stake := 20, root := exampleEvent 8 } = true ∧
        sortedRoot.Less { stake := 20, root := exampleEvent 8 }
          { stake := 20, root := exampleEvent 9 } = false) ∨
      (sortedRoot.Less { stake := 20, root := exampleEvent 9 }
          { stake := 20, root := exampleEvent 8 } = false ∧
        sortedRoot.Less { stake := 20, root := exampleEvent 8 }
          { stake := 20, root := exampleEvent 9 } = true)) ∧
    (insertionSortRoots [⟨10, exampleEvent 7⟩, ⟨20, exampleEvent 9⟩, ⟨20, exampleEvent 8⟩]).head? =
      (reverseSortRoots [⟨20, exampleEvent 8⟩, ⟨10, exampleEvent 7⟩, ⟨20, exampleEvent 9⟩]).head? :=
  ⟨by decide,
    Less_strict_total_order.2.2.2.2.2.1 { stake := 20, root := exampleEvent 9 }
      { stake := 20, root := exampleEvent 8 } (by decide),
    Less_strict_total_order.2.2.2.2.2.2 insertionSortRoots reverseSortRoots _ _
      insertionSortRoots_contract reverseSortRoots_contract (by decide)⟩

/-! ## What `notDecidedRoots` returns and what `ResetElection` keeps -/

/-- C16. When the sanity check of `notDecidedRoots` passes, it returns the
addresses of exactly the members that have no entry in `decidedRoots`, in the
order of the member list and once per position of the member list; the state
after the call, with its `decidedRoots` and `votes`, is the state before it. -/
theorem notDecidedRoots_returns (el : Election)
    (hpass : (notDecidedLoop el.decidedRoots el.members []).length + mapLen el.decidedRoots =
      el.members.length) :
    el.notDecidedRoots =
      .done (el, (el.members.filter
        (fun m => (el.decidedRoots.lookup m.Addr).isNone)).map Member.Addr) ∧
    ∀ el1 nd, el.notDecidedRoots = .done (el1, nd) →
      el1.decidedRoots = el.decidedRoots ∧ el1.votes = el.votes ∧ el1 = el := by
  have hret : el.notDecidedRoots =
      .done (el, (el.members.filter
        (fun m => (el.decidedRoots.lookup m.Addr).isNone)).map Member.Addr) := by
    unfold Election.notDecidedRoots
    simp only [hpass, ne_eq, not_true_eq_false, if_false]
    rw [notDecidedLoop_eq, List.nil_append]
  refine ⟨hret, ?_⟩
  intro el1 nd h
  rw [hret] at h
  simp only [Run.done.injEq, Prod.mk.injEq] at h
  rw [← h.1]
  exact ⟨rfl, rfl, rfl⟩

theorem notDecidedRoots_returns_witness :
    (notDecidedLoop exampleElectionPending.decidedRoots exampleElectionPending.members []).length +
        mapLen exampleElectionPending.decidedRoots = exampleElectionPending.members.length ∧
    (exampleElectionPending.notDecidedRoots =
      .done (exampleElectionPending, (exampleElectionPending.members.filter
        (fun m => (exampleElectionPending.decidedRoots.lookup m.Addr).isNone)).map Member.Addr) ∧
    ∀ el1 nd, exampleElectionPending.notDecidedRoots = .done (el1, nd) →
      el1.decidedRoots = exampleElectionPending.decidedRoots ∧
      el1.votes = exampleElectionPending.votes ∧ el1 = exampleElectionPending) :=
  ⟨by decide, notDecidedRoots_returns exampleElectionPending (by decide)⟩

/-- C17. `ResetElection` changes only `frameToDecide`, `votes` and
`decidedRoots`: the member list, `totalStake`, `superMajority` and the
`stronglySee` oracle after `ResetElection(F)` are those before it. -/
theorem ResetElection_keeps (el : Election) (F : IdxFrame) :
    (el.ResetElection F).members = el.members ∧
    (el.ResetElection F).totalStake = el.totalStake ∧
    (el.ResetElection F).superMajority = el.superMajority ∧
    (el.ResetElection F).stronglySee = el.stronglySee :=
  ⟨rfl, rfl, rfl, rfl⟩

/-! ## `ProcessKnownRoots` at the ends of the `uint64` range -/

theorem rootsLoop_next (pr : ProcessRootFn)
    (hnever : ∀ el root slot, ∃ el1, pr el root slot = .done (el1, (none, none)))
    (slot : RootSlot) :
    ∀ (roots : List Event) (el : Election) (calls : List Call),
      ∃ calls1 el1, rootsLoop pr slot roots el calls = (calls1, .next el1)
  | [], el, calls => ⟨calls, el, rfl⟩
  | root :: rest, el, calls => by
    obtain ⟨el1, h1⟩ := hnever el root slot
    obtain ⟨calls2, el2, h2⟩ := rootsLoop_next pr hnever slot rest el1 (calls ++ [⟨root, slot⟩])
    exact ⟨calls2, el2, by simp [rootsLoop, h1, h2]⟩

theorem membersLoop_next (pr : ProcessRootFn)
    (hnever : ∀ el root slot, ∃ el1, pr el root slot = .done (el1, (none, none)))
    (getRootsFn : GetRootsFn) (frame : IdxFrame) :
    ∀ (ms : List Member) (el : Election) (calls : List Call),
      ∃ calls1 el1, membersLoop pr getRootsFn frame ms el calls = (calls1, .next el1)
  | [], el, calls => ⟨calls, el, rfl⟩
  | m :: rest, el, calls => by
    obtain ⟨calls1, el1, h1⟩ := rootsLoop_next pr hnever { Frame := frame, Addr := m.Addr }
      (getRootsFn { Frame := frame, Addr := m.Addr }) el calls
    obtain ⟨calls2, el2, h2⟩ := membersLoop_next pr hnever getRootsFn frame rest el1 calls1
    exact ⟨calls2, el2, by simp [membersLoop, h1, h2]⟩

theorem framesLoop_none (pr : ProcessRootFn)
    (hnever : ∀ el root slot, ∃ el1, pr el root slot = .done (el1, (none, none)))
    (getRootsFn : GetRootsFn) :
    ∀ (fuel : Nat) (frame : IdxFrame) (el : Election) (calls : List Call),
      frame < uint64Size →
      framesLoop pr (2 ^ 64 - 1) getRootsFn fuel frame el calls = none
  | 0, _, _, _, _ => rfl
  | fuel + 1, frame, el, calls, hlt => by
    have hle : frame ≤ 2 ^ 64 - 1 := by
      unfold uint64Size at hlt
      unfold IdxFrame at *
      omega
    obtain ⟨calls1, el1, h1⟩ := membersLoop_next pr hnever getRootsFn frame el.members el calls
    have hnext : (frame + 1) % uint64Size < uint64Size :=
      Nat.mod_lt _ (by unfold uint64Size; decide)
    simp only [framesLoop, hle, if_true, h1]
    exact framesLoop_none pr hnever getRootsFn fuel _ el1 calls1 hnext

/-- C13, at the input where it fails: with `maxKnownFrame = 2^64-1` the test
`frame <= maxKnownFrame` holds for every `uint64` and `frame++` wraps to 0, so
with a `ProcessRoot` that never yields a result or an error the frame loop of
`ProcessKnownRoots` does not end, whatever the election and `getRootsFn`: no
amount of fuel lets it return. -/
theorem ProcessKnownRoots_never_returns (ProcessRoot : ProcessRootFn)
    (hnever : ∀ el root slot, ∃ el1, ProcessRoot el root slot = .done (el1, (none, none)))
    (el : Election) (getRootsFn : GetRootsFn) (fuel : Nat) :
    el.ProcessKnownRoots ProcessRoot fuel (2 ^ 64 - 1) getRootsFn = none := by
  unfold Election.ProcessKnownRoots
  exact framesLoop_none ProcessRoot hnever getRootsFn fuel _ el []
    (Nat.mod_lt _ (by unfold uint64Size; decide))

theorem ProcessKnownRoots_never_returns_witness :
    (∀ el root slot, ∃ el1, idleProcessRoot el root slot = .done (el1, (none, none))) ∧
    exampleElection.ProcessKnownRoots idleProcessRoot 1000 (2 ^ 64 - 1) exampleGetRoots = none :=
  ⟨fun el _ _ => ⟨el, rfl⟩,
    ProcessKnownRoots_never_returns idleProcessRoot (fun el _ _ => ⟨el, rfl⟩) exampleElection
      exampleGetRoots 1000⟩

/-- C14, at the input where it fails: with `frameToDecide = 2^64-1` the first
frame `frameToDecide + 1` wraps to 0, so `ProcessKnownRoots(0, getRootsFn)`
passes slots of frame 0 to `ProcessRoot`, and frame 0 is not greater than
`frameToDecide`. -/
theorem ProcessKnownRoots_wrapped_slots :
    (exampleElectionLastFrame.ProcessKnownRoots idleProcessRoot 2 0 exampleGetRoots).map Prod.fst =
      some [⟨exampleEvent 0, ⟨0, examplePeer 1⟩⟩, ⟨exampleEvent 6, ⟨0, examplePeer 2⟩⟩,
        ⟨exampleEvent 7, ⟨0, examplePeer 2⟩⟩, ⟨exampleEvent 0, ⟨0, examplePeer 3⟩⟩] ∧
    ¬ ((0 : IdxFrame) > exampleElectionLastFrame.frameToDecide) := by
  decide

theorem ProcessKnownRoots_eq_runCalls (pr : ProcessRootFn)
    (hmem : ∀ el0 root slot el1 r, pr el0 root slot = .done (el1, r) → el1.members = el0.members)
    (el : Election) (maxKnownFrame : IdxFrame) (getRootsFn : GetRootsFn)
    (hframe : el.frameToDecide < 2 ^ 64 - 1) (hmax : maxKnownFrame < 2 ^ 64 - 1)
    (fuel : Nat) (hfuel : maxKnownFrame - el.frameToDecide < fuel) :
    el.ProcessKnownRoots pr fuel maxKnownFrame getRootsFn =
      some ((runCalls pr (callsInOrder el maxKnownFrame getRootsFn) el []).1,
        (runCalls pr (callsInOrder el maxKnownFrame getRootsFn) el []).2.finish) := by
  have hwrap : (el.frameToDecide + 1) % uint64Size = el.frameToDecide + 1 := by
    unfold IdxFrame at *
    apply Nat.mod_eq_of_lt
    unfold uint64Size
    omega
  have hcalls : callsInOrder el maxKnownFrame getRootsFn =
      (List.range' (el.frameToDecide + 1) (maxKnownFrame - el.frameToDecide)).flatMap (fun fr =>
        (el.members.map (fun m => ({ Frame := fr, Addr := m.Addr } : RootSlot))).flatMap
          (fun slot => (getRootsFn slot).map
            (fun root => ({ root := root, slot := slot } : Call)))) := by
    unfold callsInOrder slotsInOrder
    rw [List.flatMap_assoc]
  unfold Election.ProcessKnownRoots
  rw [hwrap, hcalls]
  exact framesLoop_eq pr hmem maxKnownFrame getRootsFn hmax
    (maxKnownFrame - el.frameToDecide) (el.frameToDecide + 1) el [] fuel
    (by unfold IdxFrame at *; omega) hfuel

theorem mem_callsInOrder (el : Election) (maxKnownFrame : IdxFrame) (getRootsFn : GetRootsFn)
    (c : Call) (hc : c ∈ callsInOrder el maxKnownFrame getRootsFn) :
    el.frameToDecide < c.slot.Frame ∧ c.slot.Frame ≤ maxKnownFrame ∧
    c.slot.Addr ∈ el.members.map Member.Addr := by
  unfold callsInOrder slotsInOrder at hc
  simp only [List.mem_flatMap, List.mem_map, List.mem_range'_1] at hc
  obtain ⟨slot, ⟨frame, ⟨hlo, hhi⟩, m, hm, hslot⟩, root, _, hcall⟩ := hc
  subst hcall
  subst hslot
  refine ⟨?_, ?_, List.mem_map.mpr ⟨m, hm, rfl⟩⟩
  · show el.frameToDecide < frame
    unfold IdxFrame at *
    omega
  · show frame ≤ maxKnownFrame
    unfold IdxFrame at *
    omega

/-- Away from the ends of the `uint64` range the preconditions of `ProcessRoot`
are respected: with `frameToDecide` and `maxKnownFrame` below `2^64-1` and a
`ProcessRoot` that keeps the member list, every slot that `ProcessKnownRoots`
passes to `ProcessRoot` has a frame in `frameToDecide+1 .. maxKnownFrame` and the
address of a member. -/
theorem ProcessKnownRoots_slots_in_range (pr : ProcessRootFn)
    (hmem : ∀ el0 root slot el1 r, pr el0 root slot = .done (el1, r) → el1.members = el0.members)
    (el : Election) (maxKnownFrame : IdxFrame) (getRootsFn : GetRootsFn)
    (hframe : el.frameToDecide < 2 ^ 64 - 1) (hmax : maxKnownFrame < 2 ^ 64 - 1)
    (fuel : Nat) (hfuel : maxKnownFrame - el.frameToDecide < fuel) :
    ∃ made out, el.ProcessKnownRoots pr fuel maxKnownFrame getRootsFn = some (made, out) ∧
      ∀ c ∈ made, el.frameToDecide < c.slot.Frame ∧ c.slot.Frame ≤ maxKnownFrame ∧
        c.slot.Addr ∈ el.members.map Member.Addr := by
  refine ⟨_, _, ProcessKnownRoots_eq_runCalls pr hmem el maxKnownFrame getRootsFn hframe hmax
    fuel hfuel, ?_⟩
  intro c hc
  obtain ⟨k, hk⟩ := runCalls_made pr (callsInOrder el maxKnownFrame getRootsFn) el []
  rw [hk, List.nil_append] at hc
  exact mem_callsInOrder el maxKnownFrame getRootsFn c (List.mem_of_mem_take hc)

/-! ## `ProcessRoot` -/

theorem chooseSfWitness_state (sort : sortedRoots → sortedRoots) (el el1 : Election) (r : Ret)
    (h : el.chooseSfWitness sort = .done (el1, r)) : el1 = el := by
  unfold Election.chooseSfWitness at h
  split at h
  · cases h
  · cases h
  · split at h
    · simp only [Run.done.injEq, Prod.mk.injEq] at h
      exact h.1.symm
    · split at h
      · cases h
      · simp only [Run.done.injEq, Prod.mk.injEq] at h
        exact h.1.symm

theorem ProcessRoot_keeps_decided (sort : sortedRoots → sortedRoots) (el : Election)
    (p : Peer) (v : voteValue) (hdec : el.decidedRoots.lookup p = some v)
    (root : Event) (slot : RootSlot) (el1 : Election) (r : Ret)
    (h : el.ProcessRoot sort root slot = .done (el1, r)) :
    el1.decidedRoots.lookup p = some v := by
  unfold Election.ProcessRoot at h
  split at h
  · simp only [Run.done.injEq, Prod.mk.injEq] at h
    rw [← h.1]; exact hdec
  · split at h
    · simp only [Run.done.injEq, Prod.mk.injEq] at h
      rw [← h.1]; exact hdec
    · rename_i hnone
      have hne : p ≠ slot.Addr := by
        intro heq
        rw [heq, hnone] at hdec
        cases hdec
      have hkeep : ∀ vote : voteValue,
          (el.recordVote root slot.Addr vote).decidedRoots.lookup p = some v := by
        intro vote
        unfold Election.recordVote
        simp only
        split
        · rw [AList.lookup_insert_ne hne]; exact hdec
        · exact hdec
      simp only at h
      split at h
      · have hst := chooseSfWitness_state sort _ el1 r h
        rw [hst]
        exact hkeep _
      · simp only [Run.done.injEq, Prod.mk.injEq] at h
        rw [← h.1]
        exact hkeep _

theorem ProcessRoot_members (sort : sortedRoots → sortedRoots) (el : Election)
    (root : Event) (slot : RootSlot) (el1 : Election) (r : Ret)
    (h : el.ProcessRoot sort root slot = .done (el1, r)) : el1.members = el.members := by
  unfold Election.ProcessRoot at h
  split at h
  · simp only [Run.done.injEq, Prod.mk.injEq] at h
    rw [← h.1]
  · split at h
    · simp only [Run.done.injEq, Prod.mk.injEq] at h
      rw [← h.1]
    · simp only at h
      split at h
      · have hst := chooseSfWitness_state sort _ el1 r h
        rw [hst]
        rfl
      · simp only [Run.done.injEq, Prod.mk.injEq] at h
        rw [← h.1]
        rfl

/-! ## Properties that every `ProcessRoot` call keeps -/

theorem rootsLoop_holds (pr : ProcessRootFn) (P : Election → Prop)
    (hP : ∀ el root slot el1 r, P el → pr el root slot = .done (el1, r) → P el1)
    (slot : RootSlot) :
    ∀ (roots : List Event) (el : Election) (calls : List Call),
      P el → (rootsLoop pr slot roots el calls).2.holds P
  | [], el, calls, h => h
  | root :: rest, el, calls, h => by
    cases hc : pr el root slot with
    | fatal msg => simp [rootsLoop, hc, Flow.holds]
    | panic msg => simp [rootsLoop, hc, Flow.holds]
    | done a =>
      obtain ⟨el2, decided, err⟩ := a
      have h2 : P el2 := hP el root slot el2 _ h hc
      by_cases hret : (decided.isSome || err.isSome) = true
      · simp only [rootsLoop, hc, hret, if_true, Flow.holds]
        exact h2
      · simp only [rootsLoop, hc, hret, Bool.false_eq_true, if_false]
        exact rootsLoop_holds pr P hP slot rest el2 _ h2

theorem membersLoop_holds (pr : ProcessRootFn) (P : Election → Prop)
    (hP : ∀ el root slot el1 r, P el → pr el root slot = .done (el1, r) → P el1)
    (getRootsFn : GetRootsFn) (frame : IdxFrame) :
    ∀ (ms : List Member) (el : Election) (calls : List Call),
      P el → (membersLoop pr getRootsFn frame ms el calls).2.holds P
  | [], el, calls, h => h
  | m :: rest, el, calls, h => by
    have h1 := rootsLoop_holds pr P hP { Frame := frame, Addr := m.Addr }
      (getRootsFn { Frame := frame, Addr := m.Addr }) el calls h
    simp only [membersLoop]
    split
    · rename_i calls1 el1 heq
      rw [heq] at h1
      exact membersLoop_holds pr P hP getRootsFn frame rest el1 calls1 h1
    · rename_i calls1 r heq
      rw [heq] at h1
      exact h1

theorem framesLoop_holds (pr : ProcessRootFn) (P : Election → Prop)
    (hP : ∀ el root slot el1 r, P el → pr el root slot = .done (el1, r) → P el1)
    (maxKnownFrame : IdxFrame) (getRootsFn : GetRootsFn) :
    ∀ (fuel : Nat) (frame : IdxFrame) (el : Election) (calls : List Call),
      P el → ∀ calls1 el1 r,
        framesLoop pr maxKnownFrame getRootsFn fuel frame el calls = some (calls1, .done (el1, r)) →
        P el1
  | 0, _, _, _, _, _, _, _, hrun => by cases hrun
  | fuel + 1, frame, el, calls, h, calls1, el1, r, hrun => by
    have h1 := membersLoop_holds pr P hP getRootsFn frame el.members el calls h
    simp only [framesLoop] at hrun
    split at hrun
    · split at hrun
      · rename_i calls2 el2 heq
        rw [heq] at h1
        exact framesLoop_holds pr P hP maxKnownFrame getRootsFn fuel _ el2 calls2 h1
          calls1 el1 r hrun
      · rename_i calls2 r2 heq
        rw [heq] at h1
        simp only [Option.some.injEq, Prod.mk.injEq] at hrun
        rw [hrun.2] at h1
        exact h1
    · simp only [Option.some.injEq, Prod.mk.injEq, Run.done.injEq] at hrun
      rw [← hrun.2.1]
      exact h

/-! ## Decision monotonicity -/

/-- C11. Decision monotonicity: once a member `p` has the entry `v` in
`decidedRoots`, every `ProcessRoot` call that returns and every
`ProcessKnownRoots` call that returns leave `p` with the entry `v`; after
`ResetElection` the member has no entry. -/
theorem decided_entry_kept (sort : sortedRoots → sortedRoots) (el : Election)
    (p : Peer) (v : voteValue) (hdec : el.decidedRoots.lookup p = some v) :
    (∀ root slot el1 r, el.ProcessRoot sort root slot = .done (el1, r) →
      el1.decidedRoots.lookup p = some v) ∧
    (∀ fuel maxKnownFrame getRootsFn calls el1 r,
      el.ProcessKnownRoots (Election.ProcessRoot sort) fuel maxKnownFrame getRootsFn =
        some (calls, .done (el1, r)) →
      el1.decidedRoots.lookup p = some v) ∧
    (∀ F, (el.ResetElection F).decidedRoots.lookup p = none) := by
  refine ⟨?_, ?_, fun F => AList.lookup_empty _⟩
  · intro root slot el1 r h
    exact ProcessRoot_keeps_decided sort el p v hdec root slot el1 r h
  · intro fuel maxKnownFrame getRootsFn calls el1 r h
    unfold Election.ProcessKnownRoots at h
    exact framesLoop_holds (Election.ProcessRoot sort)
      (fun e => e.decidedRoots.lookup p = some v)
      (fun e root slot e1 r1 he hrun => ProcessRoot_keeps_decided sort e p v he root slot e1 r1 hrun)
      maxKnownFrame getRootsFn fuel _ el [] hdec calls el1 r h

theorem decided_entry_kept_witness :
    exampleElectionPending.decidedRoots.lookup (examplePeer 1) =
      some ⟨true, true, exampleEvent 7⟩ ∧
    (exampleElectionPending.ProcessKnownRoots (Election.ProcessRoot insertionSortRoots) 3 6
        exampleGetRoots).map
      (fun out => out.2.map (fun x => (x.1.decidedRoots.lookup (examplePeer 1), x.2))) =
      some (.done (some ⟨true, true, exampleEvent 7⟩, (none, none))) ∧
    ((∀ root slot el1 r,
        exampleElectionPending.ProcessRoot insertionSortRoots root slot = .done (el1, r) →
        el1.decidedRoots.lookup (examplePeer 1) = some ⟨true, true, exampleEvent 7⟩) ∧
      (∀ fuel maxKnownFrame getRootsFn calls el1 r,
        exampleElectionPending.ProcessKnownRoots (Election.ProcessRoot insertionSortRoots) fuel
          maxKnownFrame getRootsFn = some (calls, .done (el1, r)) →
        el1.decidedRoots.lookup (examplePeer 1) = some ⟨true, true, exampleEvent 7⟩) ∧
      (∀ F, (exampleElectionPending.ResetElection F).decidedRoots.lookup (examplePeer 1) = none)) :=
  ⟨by decide, by decide,
    decided_entry_kept insertionSortRoots exampleElectionPending (examplePeer 1)
      ⟨true, true, exampleEvent 7⟩ (by decide)⟩

end election
